import Mathlib

/-!
# Verification of btclib's BIP39 and block modules

A shallow embedding of `btclib/bip39.py` and `btclib/blocks.py` (btclib,
Python) together with the collaborator functions they use, and proofs of the
specification claims about them.

Conventions of the embedding:

* Python `bytes` values are `List Nat` with every element `< 256`.
* BIP39 binary `'0'/'1'` strings are `List Bool` (most significant bit first).
* Python `str` values that the code inspects character-by-character are
  `List Char`.
* Fallible Python code (raising `BTClibValueError`, `IndexError`,
  `OverflowError`, `ZeroDivisionError`, `TypeError`) is embedded in
  `Except Err`.
* Machine integers are `Nat`/`Int` with explicit bounds where Python's
  `int.to_bytes` / `int.from_bytes` impose them.
-/

namespace Btclib

/-! ## Bytes and bits

Helpers mirroring Python's `int.to_bytes` / `int.from_bytes` / `bin` /
`str.zfill`, used by both the BIP39 and the block code. -/

/-- `int.from_bytes(l, "little")`: little-endian bytes to `Nat`. -/
def leNat (l : List Nat) : Nat := l.foldr (fun b acc => b + 256 * acc) 0

/-- `int.from_bytes(l, "big")`: big-endian bytes to `Nat`. -/
def beNat (l : List Nat) : Nat := l.foldl (fun acc b => 256 * acc + b) 0

/-- The `len`-byte little-endian encoding of `n % 256^len`
(the value part of `int.to_bytes(len, "little")`). -/
def toBytesLE : Nat → Nat → List Nat
  | 0, _ => []
  | len + 1, n => n % 256 :: toBytesLE len (n / 256)

/-- The `len`-byte big-endian encoding of `n % 256^len`
(the value part of `int.to_bytes(len, "big")`). -/
def toBytesBE (len n : Nat) : List Nat := (toBytesLE len n).reverse

/-- Bits of a `Bool` list read as a big-endian natural (`int(s, 2)`). -/
def natOfBits (bs : List Bool) : Nat :=
  bs.foldl (fun acc b => 2 * acc + (if b then 1 else 0)) 0

/-- The `L`-bit big-endian bit string of `n % 2^L`. -/
def natBitsFixed : Nat → Nat → List Bool
  | 0, _ => []
  | L + 1, n => natBitsFixed L (n / 2) ++ [n % 2 == 1]

/-- Python `bin(n)[2:]` as a `Bool` list: the minimal binary rendering of
`n`, a single `0` for zero. Fuel-based so that it reduces in the kernel;
the fuel `n + 1` always suffices. -/
def pyBinAux : Nat → Nat → List Bool
  | 0, _ => []
  | fuel + 1, n => if n < 2 then [n == 1] else pyBinAux fuel (n / 2) ++ [n % 2 == 1]

/-- Python `bin(n)[2:]` as a `Bool` list. -/
def pyBin (n : Nat) : List Bool := pyBinAux (n + 1) n

/-- Python `s.zfill(L)` on a binary string: left-pad with `0` bits to
length `L` (no-op when already at least that long). -/
def zfill (L : Nat) (bs : List Bool) : List Bool :=
  List.replicate (L - bs.length) false ++ bs

/-- A byte sequence as its big-endian bit string, 8 bits per byte,
leading zero bits preserved. -/
def bytesToBits (l : List Nat) : List Bool := l.flatMap (natBitsFixed 8)

/-! ## SHA-256

Executable SHA-256 (FIPS 180-4) over byte lists, standing in for Python's
`hashlib.sha256`. 32-bit words are `Nat` reduced mod `2^32`; the bitwise
primitives are the kernel-accelerated `Nat` operations. -/

/-- Reduce to a 32-bit word. -/
def w32 (n : Nat) : Nat := n % 4294967296

/-- Right-rotate a 32-bit word by `n` (for `0 < n < 32`). -/
def rotr32 (x n : Nat) : Nat := w32 ((x >>> n) ||| (x <<< (32 - n)))

/-- SHA-256 `Ch(x,y,z)`; `¬x` is the 32-bit complement `x ^^^ 0xffffffff`. -/
def ch32 (x y z : Nat) : Nat := (x &&& y) ^^^ ((x ^^^ 0xffffffff) &&& z)

/-- SHA-256 `Maj(x,y,z)`. -/
def maj32 (x y z : Nat) : Nat := (x &&& y) ^^^ (x &&& z) ^^^ (y &&& z)

/-- SHA-256 `Σ0`. -/
def bsig0 (x : Nat) : Nat := rotr32 x 2 ^^^ rotr32 x 13 ^^^ rotr32 x 22

/-- SHA-256 `Σ1`. -/
def bsig1 (x : Nat) : Nat := rotr32 x 6 ^^^ rotr32 x 11 ^^^ rotr32 x 25

/-- SHA-256 `σ0`. -/
def ssig0 (x : Nat) : Nat := rotr32 x 7 ^^^ rotr32 x 18 ^^^ (x >>> 3)

/-- SHA-256 `σ1`. -/
def ssig1 (x : Nat) : Nat := rotr32 x 17 ^^^ rotr32 x 19 ^^^ (x >>> 10)

/-- SHA-256 round constants: first 32 bits of the fractional parts of the
cube roots of the first 64 primes. -/
def K256 : List Nat := [
  1116352408, 1899447441, 3049323471, 3921009573, 961987163, 1508970993, 2453635748, 2870763221,
  3624381080, 310598401, 607225278, 1426881987, 1925078388, 2162078206, 2614888103, 3248222580,
  3835390401, 4022224774, 264347078, 604807628, 770255983, 1249150122, 1555081692, 1996064986,
  2554220882, 2821834349, 2952996808, 3210313671, 3336571891, 3584528711, 113926993, 338241895,
  666307205, 773529912, 1294757372, 1396182291, 1695183700, 1986661051, 2177026350, 2456956037,
  2730485921, 2820302411, 3259730800, 3345764771, 3516065817, 3600352804, 4094571909, 275423344,
  430227734, 506948616, 659060556, 883997877, 958139571, 1322822218, 1537002063, 1747873779,
  1955562222, 2024104815, 2227730452, 2361852424, 2428436474, 2756734187, 3204031479, 3329325298]

/-- The eight working variables of a SHA-2 computation (32-bit words for
SHA-256, 64-bit words for SHA-512). -/
structure Hash8 where
  a : Nat
  b : Nat
  c : Nat
  d : Nat
  e : Nat
  f : Nat
  g : Nat
  hh : Nat
  deriving Repr, DecidableEq

/-- SHA-256 initial hash value. -/
def sha256Init : Hash8 :=
  ⟨1779033703, 3144134277, 1013904242, 2773480762, 1359893119, 2600822924, 528734635, 1541459225⟩

/-- Extend a 16-word message block to the 64-word schedule
(`fuel` = 48 words still to append). -/
def sha256Extend : Nat → List Nat → List Nat
  | 0, w => w
  | fuel + 1, w =>
    let n := w.length
    let next := w32 (ssig1 (w.getD (n - 2) 0) + w.getD (n - 7) 0 +
                     ssig0 (w.getD (n - 15) 0) + w.getD (n - 16) 0)
    sha256Extend fuel (w ++ [next])

/-- One SHA-256 round. -/
def sha256Round (st : Hash8) (kw : Nat × Nat) : Hash8 :=
  let t1 := w32 (st.hh + bsig1 st.e + ch32 st.e st.f st.g + kw.1 + kw.2)
  let t2 := w32 (bsig0 st.a + maj32 st.a st.b st.c)
  ⟨w32 (t1 + t2), st.a, st.b, st.c, w32 (st.d + t1), st.e, st.f, st.g⟩

/-- Compress one 16-word block into the running hash value. -/
def sha256Compress (hv : Hash8) (block : List Nat) : Hash8 :=
  let w := sha256Extend 48 block
  let st := (K256.zip w).foldl sha256Round hv
  ⟨w32 (hv.a + st.a), w32 (hv.b + st.b), w32 (hv.c + st.c), w32 (hv.d + st.d),
   w32 (hv.e + st.e), w32 (hv.f + st.f), w32 (hv.g + st.g), w32 (hv.hh + st.hh)⟩

/-- SHA-256 padding: `0x80`, zeros to 56 mod 64, 8-byte big-endian bit length. -/
def sha256Pad (msg : List Nat) : List Nat :=
  msg ++ [0x80] ++ List.replicate ((119 - msg.length % 64) % 64) 0 ++
    toBytesBE 8 (8 * msg.length)

/-- Group bytes into big-endian 32-bit words (length a multiple of 4). -/
def bytesToWords32 : List Nat → List Nat
  | a :: b :: c :: d :: rest => (((a * 256 + b) * 256 + c) * 256 + d) :: bytesToWords32 rest
  | _ => []

/-- Iterate the compression function over 16-word blocks
(`fuel` bounds the number of blocks; the word-list length always suffices). -/
def sha256BlocksAux : Nat → Hash8 → List Nat → Hash8
  | 0, hv, _ => hv
  | fuel + 1, hv, ws =>
    match ws with
    | [] => hv
    | _ => sha256BlocksAux fuel (sha256Compress hv (ws.take 16)) (ws.drop 16)

/-- The 4 big-endian bytes of a 32-bit word. -/
def wordBytesBE (w : Nat) : List Nat :=
  [w / 16777216 % 256, w / 65536 % 256, w / 256 % 256, w % 256]

/-- SHA-256 of a byte list: the 32-byte digest
(the embedding of Python's `hashlib.sha256(.).digest()`). -/
def sha256 (msg : List Nat) : List Nat :=
  let ws := bytesToWords32 (sha256Pad msg)
  let hv := sha256BlocksAux ws.length sha256Init ws
  wordBytesBE hv.a ++ wordBytesBE hv.b ++ wordBytesBE hv.c ++ wordBytesBE hv.d ++
    wordBytesBE hv.e ++ wordBytesBE hv.f ++ wordBytesBE hv.g ++ wordBytesBE hv.hh

/-- `hash256`: the double SHA-256 used throughout Bitcoin
(btclib `utils.hash256`, per the spec: "apply SHA-256 twice"). -/
def hash256 (msg : List Nat) : List Nat := sha256 (sha256 msg)

/-! ## SHA-512, HMAC-SHA-512 and PBKDF2

Executable SHA-512 (FIPS 180-4), HMAC (RFC 2104) and PBKDF2 (RFC 2898):
the embedding of Python's `hashlib.pbkdf2_hmac("sha512", ...)`. -/

/-- Reduce to a 64-bit word. -/
def w64 (n : Nat) : Nat := n % 18446744073709551616

/-- Right-rotate a 64-bit word by `n` (for `0 < n < 64`). -/
def rotr64 (x n : Nat) : Nat := w64 ((x >>> n) ||| (x <<< (64 - n)))

/-- SHA-512 `Ch(x,y,z)`. -/
def ch64 (x y z : Nat) : Nat := (x &&& y) ^^^ ((x ^^^ 0xffffffffffffffff) &&& z)

/-- SHA-512 `Maj(x,y,z)`. -/
def maj64 (x y z : Nat) : Nat := (x &&& y) ^^^ (x &&& z) ^^^ (y &&& z)

/-- SHA-512 `Σ0`. -/
def bsig0w (x : Nat) : Nat := rotr64 x 28 ^^^ rotr64 x 34 ^^^ rotr64 x 39

/-- SHA-512 `Σ1`. -/
def bsig1w (x : Nat) : Nat := rotr64 x 14 ^^^ rotr64 x 18 ^^^ rotr64 x 41

/-- SHA-512 `σ0`. -/
def ssig0w (x : Nat) : Nat := rotr64 x 1 ^^^ rotr64 x 8 ^^^ (x >>> 7)

/-- SHA-512 `σ1`. -/
def ssig1w (x : Nat) : Nat := rotr64 x 19 ^^^ rotr64 x 61 ^^^ (x >>> 6)

/-- SHA-512 round constants: first 64 bits of the fractional parts of the
cube roots of the first 80 primes. -/
def K512 : List Nat := [
  4794697086780616226, 8158064640168781261, 13096744586834688815, 16840607885511220156,
  4131703408338449720, 6480981068601479193, 10538285296894168987, 12329834152419229976,
  15566598209576043074, 1334009975649890238, 2608012711638119052, 6128411473006802146,
  8268148722764581231, 9286055187155687089, 11230858885718282805, 13951009754708518548,
  16472876342353939154, 17275323862435702243, 1135362057144423861, 2597628984639134821,
  3308224258029322869, 5365058923640841347, 6679025012923562964, 8573033837759648693,
  10970295158949994411, 12119686244451234320, 12683024718118986047, 13788192230050041572,
  14330467153632333762, 15395433587784984357, 489312712824947311, 1452737877330783856,
  2861767655752347644, 3322285676063803686, 5560940570517711597, 5996557281743188959,
  7280758554555802590, 8532644243296465576, 9350256976987008742, 10552545826968843579,
  11727347734174303076, 12113106623233404929, 14000437183269869457, 14369950271660146224,
  15101387698204529176, 15463397548674623760, 17586052441742319658, 1182934255886127544,
  1847814050463011016, 2177327727835720531, 2830643537854262169, 3796741975233480872,
  4115178125766777443, 5681478168544905931, 6601373596472566643, 7507060721942968483,
  8399075790359081724, 8693463985226723168, 9568029438360202098, 10144078919501101548,
  10430055236837252648, 11840083180663258601, 13761210420658862357, 14299343276471374635,
  14566680578165727644, 15097957966210449927, 16922976911328602910, 17689382322260857208,
  500013540394364858, 748580250866718886, 1242879168328830382, 1977374033974150939,
  2944078676154940804, 3659926193048069267, 4368137639120453308, 4836135668995329356,
  5532061633213252278, 6448918945643986474, 6902733635092675308, 7801388544844847127]

/-- SHA-512 initial hash value. -/
def sha512Init : Hash8 :=
  ⟨7640891576956012808, 13503953896175478587, 4354685564936845355, 11912009170470909681,
   5840696475078001361, 11170449401992604703, 2270897969802886507, 6620516959819538809⟩

/-- Extend a 16-word message block to the 80-word schedule
(`fuel` = 64 words still to append). -/
def sha512Extend : Nat → List Nat → List Nat
  | 0, w => w
  | fuel + 1, w =>
    let n := w.length
    let next := w64 (ssig1w (w.getD (n - 2) 0) + w.getD (n - 7) 0 +
                     ssig0w (w.getD (n - 15) 0) + w.getD (n - 16) 0)
    sha512Extend fuel (w ++ [next])

/-- One SHA-512 round. -/
def sha512Round (st : Hash8) (kw : Nat × Nat) : Hash8 :=
  let t1 := w64 (st.hh + bsig1w st.e + ch64 st.e st.f st.g + kw.1 + kw.2)
  let t2 := w64 (bsig0w st.a + maj64 st.a st.b st.c)
  ⟨w64 (t1 + t2), st.a, st.b, st.c, w64 (st.d + t1), st.e, st.f, st.g⟩

/-- Compress one 16-word block into the running hash value. -/
def sha512Compress (hv : Hash8) (block : List Nat) : Hash8 :=
  let w := sha512Extend 64 block
  let st := (K512.zip w).foldl sha512Round hv
  ⟨w64 (hv.a + st.a), w64 (hv.b + st.b), w64 (hv.c + st.c), w64 (hv.d + st.d),
   w64 (hv.e + st.e), w64 (hv.f + st.f), w64 (hv.g + st.g), w64 (hv.hh + st.hh)⟩

/-- SHA-512 padding: `0x80`, zeros to 112 mod 128, 16-byte big-endian bit length. -/
def sha512Pad (msg : List Nat) : List Nat :=
  msg ++ [0x80] ++ List.replicate ((239 - msg.length % 128) % 128) 0 ++
    toBytesBE 16 (8 * msg.length)

/-- Group bytes into big-endian 64-bit words (length a multiple of 8). -/
def bytesToWords64 : List Nat → List Nat
  | a :: b :: c :: d :: e :: f :: g :: h :: rest =>
    (((((((a * 256 + b) * 256 + c) * 256 + d) * 256 + e) * 256 + f) * 256 + g) * 256 + h) ::
      bytesToWords64 rest
  | _ => []

/-- Iterate the SHA-512 compression function over 16-word blocks. -/
def sha512BlocksAux : Nat → Hash8 → List Nat → Hash8
  | 0, hv, _ => hv
  | fuel + 1, hv, ws =>
    match ws with
    | [] => hv
    | _ => sha512BlocksAux fuel (sha512Compress hv (ws.take 16)) (ws.drop 16)

/-- The 8 big-endian bytes of a 64-bit word. -/
def word64BytesBE (w : Nat) : List Nat :=
  [w >>> 56 % 256, w >>> 48 % 256, w >>> 40 % 256, w >>> 32 % 256,
   w >>> 24 % 256, w >>> 16 % 256, w >>> 8 % 256, w % 256]

/-- SHA-512 of a byte list: the 64-byte digest. -/
def sha512 (msg : List Nat) : List Nat :=
  let ws := bytesToWords64 (sha512Pad msg)
  let hv := sha512BlocksAux ws.length sha512Init ws
  word64BytesBE hv.a ++ word64BytesBE hv.b ++ word64BytesBE hv.c ++ word64BytesBE hv.d ++
    word64BytesBE hv.e ++ word64BytesBE hv.f ++ word64BytesBE hv.g ++ word64BytesBE hv.hh

/-- HMAC-SHA-512 (RFC 2104; block size 128 bytes). -/
def hmacSha512 (key msg : List Nat) : List Nat :=
  let k0 := if 128 < key.length then sha512 key else key
  let k1 := k0 ++ List.replicate (128 - k0.length) 0
  sha512 (k1.map (fun b => b ^^^ 0x5c) ++ sha512 (k1.map (fun b => b ^^^ 0x36) ++ msg))

/-- Byte-wise xor of two equal-length byte strings. -/
def xorBytes (a b : List Nat) : List Nat := List.zipWith (· ^^^ ·) a b

/-- Iterated HMAC chain of PBKDF2's `F`: `fuel` further iterations,
`u` the last HMAC output, `t` the running xor. -/
def pbkdf2Iter (password : List Nat) : Nat → List Nat → List Nat → List Nat
  | 0, _, t => t
  | fuel + 1, u, t =>
    let u2 := hmacSha512 password u
    pbkdf2Iter password fuel u2 (xorBytes t u2)

/-- PBKDF2's per-block function `F(password, salt, iterations, blockIndex)`. -/
def pbkdf2F (password salt : List Nat) (iterations blockIndex : Nat) : List Nat :=
  let u1 := hmacSha512 password (salt ++ toBytesBE 4 blockIndex)
  pbkdf2Iter password (iterations - 1) u1 u1

/-- PBKDF2 with HMAC-SHA-512
(the embedding of `hashlib.pbkdf2_hmac("sha512", password, salt, iterations, dklen)`). -/
def pbkdf2HmacSha512 (password salt : List Nat) (iterations dklen : Nat) : List Nat :=
  (((List.range ((dklen + 63) / 64)).map
    (fun i => pbkdf2F password salt iterations (i + 1))).flatten).take dklen

/-! ## Errors

Python exceptions raised by the embedded code. btclib raises
`BTClibValueError` (a `ValueError`) with a message in every validation
failure; the constructors below mirror the distinct raise sites, carrying
the values the message reports. `indexError`, `overflowError`,
`zeroDivisionError` and `typeError` are the built-in Python exceptions the
code can hit outside its own checks. -/

inductive Err where
  /-- bip39 `_entropy_checksum`: "invalid number of bits for BIP39 entropy". -/
  | invalidEntropyBits (nbits : Nat)
  /-- bip39 `entropy_from_mnemonic`: "Wrong number of words". -/
  | wrongWordCount (words : Nat)
  /-- mnemonic collaborator: word not in the wordlist. -/
  | unknownWord
  /-- bip39 `entropy_from_mnemonic`: "invalid checksum: {actual}; expected: {expected}". -/
  | checksumMismatch (actual expected : List Bool)
  /-- blocks `assert_valid`: "invalid version". -/
  | invalidVersion (v : Int)
  /-- blocks `assert_valid`: "invalid previous block hash". -/
  | invalidPreviousBlockHash
  /-- blocks `assert_valid`: "invalid merkle root" (length check). -/
  | invalidMerkleRoot
  /-- blocks `assert_valid`: "invalid timestamp (before genesis)". -/
  | invalidTimestamp
  /-- blocks `assert_valid`: "invalid bits". -/
  | invalidBits
  /-- blocks `assert_valid`: "invalid nonce". -/
  | invalidNonce (n : Nat)
  /-- blocks `assert_valid_pow`: "invalid proof-of-work: {hash} >= {target}". -/
  | proofOfWorkInvalid (hsh target : List Nat)
  /-- blocks `Block.assert_valid`: "invalid merkle root: {header's} instead of: {computed}". -/
  | merkleMismatch (headerRoot computedRoot : List Nat)
  /-- blocks `Block.assert_valid` / `height`: "first transaction is not a coinbase". -/
  | missingCoinbase
  /-- Python `IndexError` (e.g. `transactions[0]` on an empty list). -/
  | indexError
  /-- Python `OverflowError` from `int.to_bytes` on an out-of-range value. -/
  | overflowError
  /-- Python `ZeroDivisionError` (difficulty with zero significand). -/
  | zeroDivisionError
  /-- Python `TypeError`/`AttributeError` (target with exponent below 3:
  `pow(256, negative)` is a float and has no `to_bytes`). -/
  | typeError
  /-- varint/varbytes collaborator: not enough data. -/
  | truncatedInput
  deriving Repr, DecidableEq

deriving instance DecidableEq for Except

/-! ## BIP39 (`btclib/bip39.py`)

The entropy and mnemonic collaborators (`btclib.entropy`,
`btclib.mnemonic`) are not part of the sources; where a definition stands
in for them it is modelled from the spec and says so in its doc comment.
The wordlist for a language is abstracted as the pair of an
index-to-word function `itw` and a word-to-index function `wti`
(spec §6: a bijection between `[0, 2048)` and 2048 distinct words); the
functions below take them as explicit arguments. -/

/-- `_bits` of `btclib.entropy`: the admissible entropy bit lengths. -/
def _bits : List Nat := [128, 160, 192, 224, 256]

/-- `_words` of bip39: `tuple(b // 32 * 3 for b in _bits)`. -/
def _words : List Nat := _bits.map (fun b => b / 32 * 3)

/-- `WORDLISTS.language_length(lang)`. Modelled from the spec: the wordlist
size "is assumed to be a power of two matching 2^11 = 2048" (spec §6). -/
def language_length : Nat := 2048

/-- bip39 `_entropy_checksum`: length check, minimal big-endian byte
serialization, SHA-256, digest → integer → binary string, `zfill(256)`,
leftmost `nbytes // 4` bits. -/
def _entropy_checksum (bin_str_entropy : List Bool) : Except Err (List Bool) :=
  let nbits := bin_str_entropy.length
  if nbits ∈ _bits then
    let nbytes := (nbits + 7) / 8
    let int_entropy := natOfBits bin_str_entropy
    if int_entropy < 256 ^ nbytes then
      let bytes_entropy := toBytesBE nbytes int_entropy
      let byteschecksum := sha256 bytes_entropy
      let intchecksum := beNat byteschecksum
      let checksum := zfill 256 (pyBin intchecksum)
      .ok (checksum.take (nbytes / 4))
    else .error .overflowError
  else .error (.invalidEntropyBits nbits)

/-- The checksum as the spec words it: "the leftmost `entropy_bits/32`
bits" of the digest "converted to a 256-bit binary string using big-endian
bit order with left-zero-padding to exactly 256 bits" (spec §4.1). -/
def spec_checksum (bin_str_entropy : List Bool) : List Bool :=
  let nbytes := (bin_str_entropy.length + 7) / 8
  (bytesToBits (sha256 (toBytesBE nbytes (natOfBits bin_str_entropy)))).take
    (bin_str_entropy.length / 32)

/-- `entropy.indexes_from_entropy`. Modelled from the spec: "Split the
combined bit-string into consecutive 11-bit groups (big-endian); each
group is an index in `[0, wordlist_size)`" (spec §4.2), with
`wordlist_size = 2048 = 2^11`. Fuel-based 11-bit chunking; the fuel
`bs.length` always suffices. -/
def chunks11Aux : Nat → List Bool → List (List Bool)
  | 0, _ => []
  | fuel + 1, l => if l.isEmpty then [] else l.take 11 :: chunks11Aux fuel (l.drop 11)

/-- `entropy.indexes_from_entropy` (modelled from the spec, see `chunks11Aux`). -/
def indexes_from_entropy (bs : List Bool) : List Nat :=
  (chunks11Aux bs.length bs).map natOfBits

/-- `entropy.entropy_from_indexes`. Modelled from the spec: "Concatenate
indexes into one bit-string of length 11×word_count" (spec §4.2), each
index as an 11-bit big-endian group. -/
def entropy_from_indexes (idxs : List Nat) : List Bool :=
  idxs.flatMap (natBitsFixed 11)

/-- Python's `str.split()` whitespace (ASCII cases). -/
def isPySpace (c : Char) : Bool :=
  c = ' ' || c = '\t' || c = '\n' || c = '\r' || c = '\x0b' || c = '\x0c'

/-- Worker for Python `str.split()`: `acc` holds the current word reversed. -/
def pySplitAux : List Char → List Char → List (List Char)
  | [], acc => if acc.isEmpty then [] else [acc.reverse]
  | c :: rest, acc =>
    if isPySpace c then
      if acc.isEmpty then pySplitAux rest [] else acc.reverse :: pySplitAux rest []
    else pySplitAux rest (c :: acc)

/-- Python `s.split()`: split on whitespace runs, no empty words. -/
def pySplit (s : List Char) : List (List Char) := pySplitAux s []

/-- Python `" ".join(ws)`. -/
def pyJoin : List (List Char) → List Char
  | [] => []
  | [w] => w
  | w :: ws => w ++ ' ' :: pyJoin ws

/-- `mnemonic.mnemonic_from_indexes`. Modelled from the spec: "Map indexes
to words via the external wordlist for `language`; join with single
spaces" (spec §4.2). -/
def mnemonic_from_indexes (itw : Nat → List Char) (idxs : List Nat) : List Char :=
  pyJoin (idxs.map itw)

/-- Map words to wordlist indexes; the first unknown word fails. -/
def wordsToIndexes (wti : List Char → Option Nat) : List (List Char) → Except Err (List Nat)
  | [] => .ok []
  | w :: ws =>
    match wti w with
    | none => .error .unknownWord
    | some i => (wordsToIndexes wti ws).map (fun rest => i :: rest)

/-- `mnemonic.indexes_from_mnemonic`. Modelled from the spec: "Map each
word back to its 11-bit index (... unknown word ⇒ fails with
`UnknownWord`)" (spec §4.2). -/
def indexes_from_mnemonic (wti : List Char → Option Nat) (mnemonic : List Char) :
    Except Err (List Nat) :=
  wordsToIndexes wti (pySplit mnemonic)

/-- bip39 `mnemonic_from_entropy` for an entropy given as a binary string
(for which `entropy.bin_str_from_entropy` is the identity: "string/byte
inputs preserve leading zeros verbatim", spec §4.2). -/
def mnemonic_from_entropy (itw : Nat → List Char) (entropy : List Bool) :
    Except Err (List Char) := do
  let checksum ← _entropy_checksum entropy
  .ok (mnemonic_from_indexes itw (indexes_from_entropy (entropy ++ checksum)))

/-- bip39 `entropy_from_mnemonic`: word-count check, indexes, entropy/
checksum split at `int(len * 32 / 33)` (float division in Python; exact,
hence equal to Nat division, at every reachable length), checksum
verification. -/
def entropy_from_mnemonic (wti : List Char → Option Nat) (mnemonic : List Char) :
    Except Err (List Bool) :=
  let words := (pySplit mnemonic).length
  if words ∈ _words then do
    let idxs ← indexes_from_mnemonic wti mnemonic
    let cs_entropy := entropy_from_indexes idxs
    let bits := cs_entropy.length * 32 / 33
    let bin_str_entropy := cs_entropy.take bits
    let checksum ← _entropy_checksum bin_str_entropy
    if cs_entropy.drop bits ≠ checksum then
      .error (.checksumMismatch (cs_entropy.drop bits) checksum)
    else
      .ok bin_str_entropy
  else .error (.wrongWordCount words)

/-- UTF-8 encoding of one character (Python `str.encode()`). -/
def utf8Char (c : Char) : List Nat :=
  let n := c.toNat
  if n < 0x80 then [n]
  else if n < 0x800 then [0xc0 + n / 64, 0x80 + n % 64]
  else if n < 0x10000 then [0xe0 + n / 4096, 0x80 + n / 64 % 64, 0x80 + n % 64]
  else [0xf0 + n / 262144, 0x80 + n / 4096 % 64, 0x80 + n / 64 % 64, 0x80 + n % 64]

/-- Python `s.encode()`: UTF-8 bytes of a string. -/
def utf8Encode (s : List Char) : List Nat := s.flatMap utf8Char

/-- bip39 `seed_from_mnemonic`: optional checksum verification, whitespace
normalization `" ".join(mnemonic.split())`, PBKDF2-HMAC-SHA-512 with salt
`"mnemonic" + passphrase`, 2048 iterations, 64 bytes. -/
def seed_from_mnemonic (wti : List Char → Option Nat)
    (mnemonic passphrase : List Char) (verify_checksum : Bool) :
    Except Err (List Nat) := do
  if verify_checksum then
    let _ ← entropy_from_mnemonic wti mnemonic
  let password := utf8Encode (pyJoin (pySplit mnemonic))
  let salt := utf8Encode ("mnemonic".toList ++ passphrase)
  .ok (pbkdf2HmacSha512 password salt 2048 64)

/-! ## Block headers (`btclib/blocks.py`)

`BlockHeader.time` is a Python `datetime`, modelled by `PyDatetime` below.
`BlockHeader.difficulty` is computed in `ℚ` where Python uses binary64
floats; every claim proved about it below is exact at the point where it
is evaluated. -/

/-- The Python `datetime` of a header's `time` field, at the granularity
the block code observes: `seconds` and `micro` are the whole-second and
microsecond parts of `time.timestamp()` (for a timezone-naive datetime,
of the POSIX timestamp the environment's local timezone assigns it), and
`aware` records whether the datetime carries a timezone. Equality is
Python's `==` on the instants the code compares: two aware datetimes are
equal iff they denote the same instant, and a naive datetime never equals
an aware one. Timestamps before 1970 are out of scope (`assert_valid`
rejects anything before 2009 anyway). The code reads the field only via
`time.timestamp()`:

* `int(time.timestamp())` is exactly `seconds` — the float is within
  half an ULP (`< 2^-22` near `2^30`) of `seconds + micro/10^6 < seconds + 1`,
  so truncation never leaves the whole-second part;
* `time.timestamp() < 1231006505` iff `seconds < 1231006505`, for the same
  reason (the genesis bound is an integer). -/
structure PyDatetime where
  seconds : Nat
  micro : Nat
  aware : Bool
  deriving Repr, DecidableEq

/-- `int.to_bytes(len, "little", signed=True)`: fails with `OverflowError`
outside the signed range. -/
def intToBytesLESigned (len : Nat) (v : Int) : Except Err (List Nat) :=
  if -(2 ^ (8 * len - 1) : Int) ≤ v ∧ v < 2 ^ (8 * len - 1) then
    .ok (toBytesLE len (v % (2 ^ (8 * len) : Int)).toNat)
  else .error .overflowError

/-- `int.to_bytes(len, "little", signed=False)`: fails with
`OverflowError` when the value does not fit. -/
def natToBytesLEChecked (len n : Nat) : Except Err (List Nat) :=
  if n < 256 ^ len then .ok (toBytesLE len n) else .error .overflowError

/-- `int.from_bytes(l, "little", signed=True)`. -/
def leNatSigned (l : List Nat) : Int :=
  let u := leNat l
  if 2 * u < 2 ^ (8 * l.length) then (u : Int) else (u : Int) - 2 ^ (8 * l.length)

/-- Python `bytes` `<`: lexicographic, a strict prefix is smaller. -/
def bytesLt : List Nat → List Nat → Bool
  | [], [] => false
  | [], _ :: _ => true
  | _ :: _, [] => false
  | a :: as, b :: bs => if a < b then true else if b < a then false else bytesLt as bs

/-- Python `bytes` `>=` (as in `self.hash() >= self.target`). -/
def bytesGe (a b : List Nat) : Bool := !bytesLt a b

/-- The six public fields of blocks.py's `BlockHeader` dataclass (the
private `_target`/`_difficulty` shadow fields exist only for `to_dict` and
are excluded from equality by `compare=False`). -/
structure BlockHeader where
  version : Int
  previous_block_hash : List Nat
  merkle_root : List Nat
  time : PyDatetime
  bits : List Nat
  nonce : Nat
  deriving Repr, DecidableEq

/-- `BlockHeader.target` property: `significand * 256^(bits[0] - 3)` as 32
big-endian bytes. `bits[0]` on empty bits is an `IndexError`; an exponent
below 3 makes `pow(256, ...)` a float, whose missing `to_bytes` is a
`TypeError`; a value not fitting 32 bytes is an `OverflowError`. -/
def BlockHeader.target (h : BlockHeader) : Except Err (List Nat) :=
  match h.bits with
  | [] => .error .indexError
  | b0 :: rest =>
    if b0 < 3 then .error .typeError
    else
      let value := beNat rest * 256 ^ (b0 - 3)
      if value < 256 ^ 32 then .ok (toBytesBE 32 value) else .error .overflowError

/-- `BlockHeader.difficulty` property: `(0xFFFF / significand) *
256^(0x1D - bits[0])`, the two factors as Python computes them (floats
there, `ℚ` here). The division is evaluated first, so a zero significand
is a `ZeroDivisionError` even for empty bits. -/
def BlockHeader.difficulty (h : BlockHeader) : Except Err ℚ :=
  let sig := beNat (h.bits.drop 1)
  if sig = 0 then .error .zeroDivisionError
  else
    match h.bits with
    | [] => .error .indexError
    | b0 :: _ => .ok ((65535 : ℚ) / (sig : ℚ) * (256 : ℚ) ^ ((29 : ℤ) - (b0 : ℤ)))

/-- `BlockHeader.serialize(assert_valid=False)`: the 80-byte layout —
4-byte signed LE version, reversed previous hash, reversed merkle root,
4-byte LE time, reversed bits, 4-byte LE nonce. -/
def BlockHeader.serializeNoValid (h : BlockHeader) : Except Err (List Nat) := do
  let v ← intToBytesLESigned 4 h.version
  let t ← natToBytesLEChecked 4 h.time.seconds
  let n ← natToBytesLEChecked 4 h.nonce
  .ok (v ++ h.previous_block_hash.reverse ++ h.merkle_root.reverse ++ t ++ h.bits.reverse ++ n)

/-- `BlockHeader.hash()`: reversed double SHA-256 of the unvalidated
serialization. -/
def BlockHeader.hash (h : BlockHeader) : Except Err (List Nat) :=
  (h.serializeNoValid).map (fun s => (hash256 s).reverse)

/-- `BlockHeader.assert_valid_pow()`: fail with `ProofOfWorkInvalid` when
`hash() >= target` (Python bytes comparison). -/
def BlockHeader.assert_valid_pow (h : BlockHeader) : Except Err Unit := do
  let hsh ← h.hash
  let t ← h.target
  if bytesGe hsh t then .error (.proofOfWorkInvalid hsh t) else .ok ()

/-- `BlockHeader.assert_valid()`: the six field checks in source order,
then `_set_properties` (which evaluates the `target` and `difficulty`
properties, propagating their errors), then the proof-of-work check. -/
def BlockHeader.assert_valid (h : BlockHeader) : Except Err Unit :=
  if ¬(0 < h.version ∧ h.version ≤ 0x7FFFFFFF) then .error (.invalidVersion h.version)
  else if h.previous_block_hash.length ≠ 32 then .error .invalidPreviousBlockHash
  else if h.merkle_root.length ≠ 32 then .error .invalidMerkleRoot
  else if h.time.seconds < 1231006505 then .error .invalidTimestamp
  else if h.bits.length ≠ 4 then .error .invalidBits
  else if ¬(0 < h.nonce ∧ h.nonce ≤ 0xFFFFFFFF) then .error (.invalidNonce h.nonce)
  else do
    let _ ← h.target
    let _ ← h.difficulty
    h.assert_valid_pow

/-- `BlockHeader.serialize(assert_valid=av)`. -/
def BlockHeader.serialize (h : BlockHeader) (av : Bool) : Except Err (List Nat) :=
  if av then h.assert_valid >>= fun _ => h.serializeNoValid else h.serializeNoValid

/-- `BlockHeader.deserialize(data, assert_valid=av)`: reads through the
80-byte layout; a short buffer yields short `stream.read` results exactly
as Python's `BytesIO.read` does (no truncation check anywhere). -/
def BlockHeader.deserialize (data : List Nat) (av : Bool) : Except Err BlockHeader :=
  let version := leNatSigned (data.take 4)
  let r1 := data.drop 4
  let previous_block_hash := (r1.take 32).reverse
  let r2 := r1.drop 32
  let merkle_root := (r2.take 32).reverse
  let r3 := r2.drop 32
  let time : PyDatetime := ⟨leNat (r3.take 4), 0, true⟩
  let r4 := r3.drop 4
  let bits := (r4.take 4).reverse
  let r5 := r4.drop 4
  let nonce := leNat (r5.take 4)
  let h : BlockHeader := ⟨version, previous_block_hash, merkle_root, time, bits, nonce⟩
  if av then h.assert_valid >>= fun _ => .ok h else .ok h

/-! ## Blocks (`btclib/blocks.py`, `Block`)

The transaction collaborator (`btclib.tx`) is not in the sources; per the
spec (§6) it is "consumed as opaque per-transaction operations", so `Tx`
is modelled as a record of those operations' results. -/

/-- A transaction input: only `script_sig` is read by the block code. -/
structure TxIn where
  script_sig : List Nat
  deriving Repr, DecidableEq

/-- Modelled from the spec: the opaque transaction collaborator, recorded
by the results of the operations the block code consumes (spec §6:
`serialize/deserialize`, `assert_valid()`, `is_coinbase()`, `weight()`,
`segwit()`). -/
structure Tx where
  vin : List TxIn
  /-- `serialize(include_witness=False, assert_valid=False)`. -/
  nwSerialization : List Nat
  /-- `serialize(include_witness=True)`. -/
  wSerialization : List Nat
  /-- `is_coinbase()`. -/
  coinbase : Bool
  /-- the outcome of `assert_valid()`. -/
  validity : Except Err Unit
  /-- `weight`. -/
  txWeight : Nat
  /-- `segwit()`. -/
  txSegwit : Bool
  deriving Repr, DecidableEq

/-- One level of the merkle fold: double-SHA-256 of adjacent pairs, an
unpaired last node combined with itself. Modelled from the spec (§4.5):
"double-SHA-256 pairwise combination". -/
def merkleLevel : List (List Nat) → List (List Nat)
  | [] => []
  | [x] => [hash256 (x ++ x)]
  | x :: y :: rest => hash256 (x ++ y) :: merkleLevel rest

/-- Fold merkle levels until one node remains (fuel-based; the initial
leaf count always suffices as fuel). -/
def merkleReduce : Nat → List (List Nat) → List Nat
  | _, [] => []
  | _, [x] => x
  | 0, x :: _ :: _ => x
  | fuel + 1, x :: y :: rest => merkleReduce fuel (merkleLevel (x :: y :: rest))

/-- `utils.merkle_root(data, hash256)`. Modelled from the spec (§4.5):
"recomputes the merkle root over all transactions' non-witness
serializations using double-SHA-256 pairwise combination". -/
def merkle_root (data : List (List Nat)) : List Nat :=
  merkleReduce data.length (data.map hash256)

/-- `varint.serialize`. Modelled from the spec (§6): the standard Bitcoin
variable-length unsigned integer encoding. -/
def varintSerialize (n : Nat) : List Nat :=
  if n < 0xfd then [n]
  else if n < 0x10000 then 0xfd :: toBytesLE 2 n
  else if n < 0x100000000 then 0xfe :: toBytesLE 4 n
  else 0xff :: toBytesLE 8 n

/-- `varbytes.deserialize` on a script. Modelled from the spec (§4.5 and
the code comment at `Block.height`): "first byte is number of bytes,
followed by the ... representation of the height"; empty data has no
length byte to read. Length prefixes that are themselves multi-byte
varints (≥ 0xfd, scripts over 252 bytes) do not occur in any claim and
are not modelled. -/
def varbytesDeserialize (l : List Nat) : Except Err (List Nat) :=
  match l with
  | [] => .error .truncatedInput
  | n :: rest => if n < 0xfd then .ok (rest.take n) else .error .truncatedInput

/-- blocks.py's `Block` dataclass: header plus ordered transactions (the
`_size`/`_weight`/`_vsize`/`_height` shadow fields again excluded from
equality). -/
structure Block where
  header : BlockHeader
  transactions : List Tx
  deriving Repr, DecidableEq

/-- The `for transaction in self.transactions[1:]: transaction.assert_valid()`
loop: first failure propagates. -/
def txsAssertValid : List Tx → Except Err Unit
  | [] => .ok ()
  | t :: rest => t.validity >>= fun _ => txsAssertValid rest

/-- `Block.serialize(include_witness, assert_valid=False)`: note the inner
`self.header.serialize()` call uses the header's default
`assert_valid=True`. -/
def Block.serializeNoValid (b : Block) (include_witness : Bool) : Except Err (List Nat) := do
  let hs ← b.header.serialize true
  .ok (hs ++ varintSerialize b.transactions.length ++
    (b.transactions.map (fun t =>
      if include_witness then t.wSerialization else t.nwSerialization)).flatten)

/-- `Block.size` property: `len(self.serialize(assert_valid=False))`. -/
def Block.sizeE (b : Block) : Except Err Nat :=
  (b.serializeNoValid true).map List.length

/-- `Block.weight` property: sum of the transactions' weights. -/
def Block.weight (b : Block) : Nat :=
  (b.transactions.map Tx.txWeight).sum

/-- `Block.vsize` property: `ceil(weight / 4)`. -/
def Block.vsize (b : Block) : Nat := (b.weight + 3) / 4

/-- `Block.height` property: `transactions[0]` (an `IndexError` on an
empty list), the coinbase check, `None` for version 1, else the first
push of the coinbase script as a signed little-endian integer. -/
def Block.heightE (b : Block) : Except Err (Option Int) :=
  match b.transactions with
  | [] => .error .indexError
  | t0 :: _ =>
    if t0.coinbase = false then .error .missingCoinbase
    else if b.header.version = 1 then .ok none
    else
      match t0.vin with
      | [] => .error .indexError
      | vi :: _ => (varbytesDeserialize vi.script_sig).map (fun hb => some (leNatSigned hb))

/-- `Block.segwit()`. -/
def Block.segwit (b : Block) : Bool := b.transactions.any Tx.txSegwit

/-- `Block.assert_valid()`: `transactions[0]` (an `IndexError` on an empty
list), coinbase check, per-transaction validation of the rest, merkle
recomputation, header validation, then `_set_properties` (whose `size`
and `height` reads can themselves fail). -/
def Block.assert_valid (b : Block) : Except Err Unit :=
  match b.transactions with
  | [] => .error .indexError
  | t0 :: rest =>
    if t0.coinbase = false then .error .missingCoinbase
    else do
      txsAssertValid rest
      let mr := (merkle_root ((t0 :: rest).map Tx.nwSerialization)).reverse
      if mr ≠ b.header.merkle_root then .error (.merkleMismatch b.header.merkle_root mr)
      else do
        b.header.assert_valid
        let _ ← b.sizeE
        let _ ← b.heightE
        .ok ()

/-- `Block.serialize(include_witness, assert_valid=av)`. -/
def Block.serialize (b : Block) (include_witness av : Bool) : Except Err (List Nat) :=
  if av then b.assert_valid >>= fun _ => b.serializeNoValid include_witness
  else b.serializeNoValid include_witness

/-! ## Concrete values used by the witness theorems -/

/-- The everything-unknown wordlist, for the C6 witness (with verification
skipped the wordlist is never consulted). -/
def wtiNone : List Char → Option Nat := fun _ => none

/-- A header with the genesis compact target, for the C9 witness. -/
def hdrGenesisBits : BlockHeader := ⟨1, [], [], ⟨0, 0, true⟩, [0x1d, 0x00, 0xff, 0xff], 0⟩

/-- A concrete header with an easy target, shared by the proof-of-work and
round-trip witnesses: version 1, zero hashes, genesis time, compact bits
`0x20ffffff`, nonce 1. -/
def hdrStd : BlockHeader :=
  ⟨1, List.replicate 32 0, List.replicate 32 0, ⟨1231006505, 0, true⟩, [0x20, 0xff, 0xff, 0xff], 1⟩

/-- `hdrStd`'s 80-byte serialization. -/
def hdrStdSer : List Nat :=
  [1, 0, 0, 0] ++ List.replicate 64 0 ++ [41, 171, 95, 73] ++ [255, 255, 255, 32] ++ [1, 0, 0, 0]

/-- `hdrStd`'s decoded target: `0xffffff · 256^29`. -/
def hdrStdTarget : List Nat := [255, 255, 255] ++ List.replicate 29 0

/-- `hdrStd` with a fractional-second time
(`datetime.fromtimestamp(1231006505.5, timezone.utc)`): valid, but not
round-trippable, since serialization truncates to whole seconds. -/
def hdrFrac : BlockHeader :=
  ⟨1, List.replicate 32 0, List.replicate 32 0, ⟨1231006505, 500000, true⟩,
   [0x20, 0xff, 0xff, 0xff], 1⟩

/-- A trivial coinbase transaction record for the merkle witness. -/
def txCb : Tx := ⟨[], [], [], true, .ok (), 0, false⟩

/-- A concrete wordlist for the BIP39 witnesses: word `i` is its 4-digit
decimal rendering. -/
def itwW (i : Nat) : List Char :=
  [Char.ofNat (48 + i / 1000), Char.ofNat (48 + i / 100 % 10),
   Char.ofNat (48 + i / 10 % 10), Char.ofNat (48 + i % 10)]

/-- The inverse lookup of `itwW`. -/
def wtiW : List Char → Option Nat
  | [a, b, c, d] =>
    if 48 ≤ a.toNat ∧ a.toNat ≤ 57 ∧ 48 ≤ b.toNat ∧ b.toNat ≤ 57 ∧
       48 ≤ c.toNat ∧ c.toNat ≤ 57 ∧ 48 ≤ d.toNat ∧ d.toNat ≤ 57 then
      let n := (a.toNat - 48) * 1000 + (b.toNat - 48) * 100 +
        (c.toNat - 48) * 10 + (d.toNat - 48)
      if n < 2048 then some n else none
    else none
  | _ => none

/-- The all-zero 12-word mnemonic over that wordlist (its checksum words
are wrong: the true checksum of 128 zero bits is `0011`). -/
def mnemZero : List Char := pyJoin (List.replicate 12 (itwW 0))

/-! ## Lemmas about the byte/bit helpers -/

theorem toBytesLE_length (len n : Nat) : (toBytesLE len n).length = len := by
  induction len generalizing n with
  | zero => rfl
  | succ k ih => simp [toBytesLE, ih]

theorem toBytesBE_length (len n : Nat) : (toBytesBE len n).length = len := by
  simp [toBytesBE, toBytesLE_length]

theorem toBytesLE_lt (len n : Nat) : ∀ b ∈ toBytesLE len n, b < 256 := by
  induction len generalizing n with
  | zero => simp [toBytesLE]
  | succ k ih =>
    intro b hb
    simp only [toBytesLE, List.mem_cons] at hb
    rcases hb with h | h
    · omega
    · exact ih _ b h

theorem toBytesBE_lt (len n : Nat) : ∀ b ∈ toBytesBE len n, b < 256 := by
  intro b hb
  exact toBytesLE_lt len n b (List.mem_reverse.1 hb)

theorem leNat_cons (b : Nat) (l : List Nat) : leNat (b :: l) = b + 256 * leNat l := rfl

theorem leNat_toBytesLE {len n : Nat} (h : n < 256 ^ len) :
    leNat (toBytesLE len n) = n := by
  induction len generalizing n with
  | zero => simp at h; simp [toBytesLE, leNat, h]
  | succ k ih =>
    have hdiv : n / 256 < 256 ^ k := by
      rw [Nat.div_lt_iff_lt_mul (by norm_num)]
      calc n < 256 ^ (k + 1) := h
        _ = 256 ^ k * 256 := by ring
    rw [toBytesLE, leNat_cons, ih hdiv]
    omega

theorem beNat_append_singleton (l : List Nat) (b : Nat) :
    beNat (l ++ [b]) = 256 * beNat l + b := by
  simp [beNat, List.foldl_append]

theorem beNat_reverse (l : List Nat) : beNat l.reverse = leNat l := by
  induction l with
  | nil => rfl
  | cons x xs ih =>
    simp only [List.reverse_cons, beNat_append_singleton, ih, leNat_cons]
    omega

theorem beNat_toBytesBE {len n : Nat} (h : n < 256 ^ len) :
    beNat (toBytesBE len n) = n := by
  rw [toBytesBE, beNat_reverse, leNat_toBytesLE h]

theorem natOfBits_append_singleton (bs : List Bool) (b : Bool) :
    natOfBits (bs ++ [b]) = 2 * natOfBits bs + (if b then 1 else 0) := by
  simp [natOfBits, List.foldl_append]

theorem natOfBits_lt (bs : List Bool) : natOfBits bs < 2 ^ bs.length := by
  induction bs using List.reverseRecOn with
  | nil => simp [natOfBits]
  | append_singleton xs b ih =>
    rw [natOfBits_append_singleton]
    simp only [List.length_append, List.length_singleton, pow_succ]
    cases b <;> simp <;> omega

theorem natBitsFixed_length (L n : Nat) : (natBitsFixed L n).length = L := by
  induction L generalizing n with
  | zero => rfl
  | succ k ih => simp [natBitsFixed, ih]

theorem natOfBits_natBitsFixed (L n : Nat) :
    natOfBits (natBitsFixed L n) = n % 2 ^ L := by
  induction L generalizing n with
  | zero => simp [natBitsFixed, natOfBits, Nat.mod_one]
  | succ k ih =>
    rw [natBitsFixed, natOfBits_append_singleton, ih]
    have h2 : n % 2 ^ (k + 1) = 2 * (n / 2 % 2 ^ k) + n % 2 := by
      rw [pow_succ, Nat.mul_comm, Nat.mod_mul]
      omega
    rcases Nat.mod_two_eq_zero_or_one n with h | h <;> simp [h, h2]

theorem natBitsFixed_natOfBits {bs : List Bool} : natBitsFixed bs.length (natOfBits bs) = bs := by
  induction bs using List.reverseRecOn with
  | nil => rfl
  | append_singleton xs b ih =>
    rw [natOfBits_append_singleton]
    simp only [List.length_append, List.length_singleton]
    rw [natBitsFixed]
    have hdiv : (2 * natOfBits xs + (if b then 1 else 0)) / 2 = natOfBits xs := by
      cases b <;> simp <;> omega
    have hmod : (2 * natOfBits xs + (if b then 1 else 0)) % 2 = (if b then 1 else 0) := by
      cases b <;> simp [Nat.add_mul_mod_self_left] <;> omega
    rw [hdiv, hmod, ih]
    cases b <;> simp

/-- A fixed-width bit string splits at any bit position into the bits of the
high and low parts. -/
theorem natBitsFixed_split (m k n : Nat) :
    natBitsFixed (m + k) n = natBitsFixed m (n / 2 ^ k) ++ natBitsFixed k (n % 2 ^ k) := by
  induction k generalizing n with
  | zero => simp [natBitsFixed]
  | succ j ih =>
    have h1 : n / 2 / 2 ^ j = n / 2 ^ (j + 1) := by
      rw [Nat.div_div_eq_div_mul, pow_succ, Nat.mul_comm]
    have h2 : n % 2 ^ (j + 1) / 2 = n / 2 % 2 ^ j := by
      rw [pow_succ, Nat.mul_comm]
      exact Nat.mod_mul_right_div_self n 2 (2 ^ j)
    have h3 : n % 2 ^ (j + 1) % 2 = n % 2 := by
      apply Nat.mod_mod_of_dvd
      exact dvd_pow_self 2 (Nat.succ_ne_zero j)
    rw [show m + (j + 1) = (m + j) + 1 from rfl, natBitsFixed, ih, natBitsFixed, h1, h2, h3]
    simp

/-- On genuine bytes, the big-endian integer reading loses no information:
its fixed-width bit string is the concatenation of the bytes' bit strings. -/
theorem natBitsFixed_beNat (l : List Nat) (h : ∀ b ∈ l, b < 256) :
    natBitsFixed (8 * l.length) (beNat l) = bytesToBits l := by
  induction l using List.reverseRecOn with
  | nil => simp [beNat, natBitsFixed, bytesToBits]
  | append_singleton xs b ih =>
    have hb : b < 256 := h b (by simp)
    have hxs : ∀ x ∈ xs, x < 256 := fun x hx => h x (by simp [hx])
    rw [beNat_append_singleton]
    have hlen : 8 * (xs ++ [b]).length = 8 * xs.length + 8 := by simp; ring
    rw [hlen, natBitsFixed_split]
    have hdiv : (256 * beNat xs + b) / 2 ^ 8 = beNat xs := by
      norm_num
      omega
    have hmod : (256 * beNat xs + b) % 2 ^ 8 = b := by
      norm_num
      omega
    rw [hdiv, hmod, ih hxs]
    simp [bytesToBits]

theorem pyBinAux_succ (f n : Nat) :
    pyBinAux (f + 1) n = if n < 2 then [n == 1] else pyBinAux f (n / 2) ++ [n % 2 == 1] := rfl

/-- The fuel in `pyBinAux` is irrelevant once it is at least the argument. -/
theorem pyBinAux_fuel : ∀ f n g : Nat, n ≤ f → n ≤ g →
    pyBinAux (f + 1) n = pyBinAux (g + 1) n := by
  intro f
  induction f with
  | zero =>
    intro n g hn _
    interval_cases n
    conv_lhs => rw [pyBinAux_succ]
    conv_rhs => rw [pyBinAux_succ]
    simp
  | succ k ih =>
    intro n g hn hg
    conv_lhs => rw [pyBinAux_succ]
    conv_rhs => rw [pyBinAux_succ]
    by_cases h2 : n < 2
    · simp [h2]
    · simp only [if_neg h2]
      obtain ⟨g', rfl⟩ : ∃ g', g = g' + 1 := ⟨g - 1, by omega⟩
      rw [ih (n / 2) g' (by omega) (by omega)]

/-- Unfolding step of Python's `bin` for arguments at least 2. -/
theorem pyBin_step {n : Nat} (h : 2 ≤ n) :
    pyBin n = pyBin (n / 2) ++ [n % 2 == 1] := by
  obtain ⟨m, rfl⟩ : ∃ m, n = m + 1 := ⟨n - 1, by omega⟩
  rw [pyBin, pyBin, pyBinAux_succ, if_neg (by omega),
    pyBinAux_fuel m ((m + 1) / 2) ((m + 1) / 2) (by omega) (le_refl _)]

theorem natOfBits_pyBin (n : Nat) : natOfBits (pyBin n) = n := by
  induction n using Nat.strong_induction_on with
  | _ n ih =>
    by_cases h2 : n < 2
    · interval_cases n <;> rfl
    · rw [pyBin_step (by omega), natOfBits_append_singleton, ih (n / 2) (by omega)]
      rcases Nat.mod_two_eq_zero_or_one n with h | h <;> simp [h] <;> omega

theorem pyBin_length_le {L n : Nat} (h : n < 2 ^ L) (hL : 0 < L) :
    (pyBin n).length ≤ L := by
  induction n using Nat.strong_induction_on generalizing L with
  | _ n ih =>
    by_cases h2 : n < 2
    · have : pyBin n = [n == 1] := by interval_cases n <;> rfl
      simp [this]; omega
    · have hL2 : 2 ≤ L := by
        by_contra hc
        interval_cases L <;> omega
      rw [pyBin_step (by omega)]
      have hdiv : n / 2 < 2 ^ (L - 1) := by
        have : 2 ^ L = 2 ^ (L - 1) * 2 := by
          rw [← pow_succ]
          congr 1
          omega
        omega
      have := ih (n / 2) (by omega) hdiv (by omega)
      simp only [List.length_append, List.length_singleton]
      omega

theorem zfill_length {L : Nat} {bs : List Bool} (h : bs.length ≤ L) :
    (zfill L bs).length = L := by
  simp [zfill]
  omega

theorem natOfBits_replicate_false_append (k : Nat) (bs : List Bool) :
    natOfBits (List.replicate k false ++ bs) = natOfBits bs := by
  induction k with
  | zero => rfl
  | succ j ih =>
    rw [List.replicate_succ, List.cons_append]
    show natOfBits (List.replicate j false ++ bs) = _
    exact ih

theorem natOfBits_zfill (L : Nat) (bs : List Bool) :
    natOfBits (zfill L bs) = natOfBits bs :=
  natOfBits_replicate_false_append _ bs

/-- Fixed-length bit strings with the same value are equal. -/
theorem natOfBits_inj {bs cs : List Bool} (hlen : bs.length = cs.length)
    (hval : natOfBits bs = natOfBits cs) : bs = cs := by
  have h1 : natBitsFixed bs.length (natOfBits bs) = bs := natBitsFixed_natOfBits
  have h2 : natBitsFixed cs.length (natOfBits cs) = cs := natBitsFixed_natOfBits
  rw [← h1, ← h2, hlen, hval]

/-- The zero-filled Python binary rendering of an integer below `2^L` is
exactly its `L`-bit big-endian bit string: the `zfill` recovers exactly the
leading zero bits that the integer conversion lost. -/
theorem zfill_pyBin {L n : Nat} (h : n < 2 ^ L) (hL : 0 < L) :
    zfill L (pyBin n) = natBitsFixed L n := by
  apply natOfBits_inj
  · rw [zfill_length (pyBin_length_le h hL), natBitsFixed_length]
  · rw [natOfBits_zfill, natOfBits_pyBin, natOfBits_natBitsFixed, Nat.mod_eq_of_lt h]

/-! ## Structural facts about SHA-256 output -/

theorem wordBytesBE_length (w : Nat) : (wordBytesBE w).length = 4 := rfl

theorem sha256_length (msg : List Nat) : (sha256 msg).length = 32 := by
  simp [sha256, wordBytesBE]

theorem wordBytesBE_lt (w : Nat) : ∀ b ∈ wordBytesBE w, b < 256 := by
  intro b hb
  simp [wordBytesBE] at hb
  rcases hb with h | h | h | h <;> omega

theorem sha256_lt (msg : List Nat) : ∀ b ∈ sha256 msg, b < 256 := by
  intro b hb
  simp only [sha256, List.mem_append] at hb
  rcases hb with ((((((h | h) | h) | h) | h) | h) | h) | h <;> exact wordBytesBE_lt _ b h

/-! ## The BIP39 checksum -/

theorem beNat_lt {l : List Nat} (h : ∀ b ∈ l, b < 256) : beNat l < 256 ^ l.length := by
  induction l using List.reverseRecOn with
  | nil => simp [beNat]
  | append_singleton xs b ih =>
    have hb : b < 256 := h b (by simp)
    have hxs := ih (fun x hx => h x (by simp [hx]))
    rw [beNat_append_singleton]
    simp only [List.length_append, List.length_singleton, pow_succ]
    omega

theorem bytesToBits_length (l : List Nat) : (bytesToBits l).length = 8 * l.length := by
  induction l with
  | nil => rfl
  | cons x xs ih =>
    simp only [bytesToBits, List.flatMap_cons, List.length_append, natBitsFixed_length,
      List.length_cons] at ih ⊢
    omega

set_option maxHeartbeats 1000000 in
/-- What `_entropy_checksum` computes on a valid-length entropy: the
leftmost `nbytes // 4` bits of the digest's 256-bit big-endian bit
string. -/
theorem entropy_checksum_eq {e : List Bool} (h : e.length ∈ _bits) :
    _entropy_checksum e =
      .ok ((bytesToBits (sha256 (toBytesBE ((e.length + 7) / 8) (natOfBits e)))).take
        ((e.length + 7) / 8 / 4)) := by
  have hfit : natOfBits e < 256 ^ ((e.length + 7) / 8) := by
    calc natOfBits e < 2 ^ e.length := natOfBits_lt e
      _ ≤ 2 ^ (8 * ((e.length + 7) / 8)) := Nat.pow_le_pow_right (by norm_num) (by omega)
      _ = 256 ^ ((e.length + 7) / 8) := by
          rw [show (256 : Nat) = 2 ^ 8 from rfl, ← pow_mul]
  unfold _entropy_checksum
  rw [if_pos h, if_pos hfit]
  show Except.ok (List.take ((e.length + 7) / 8 / 4)
    (zfill 256 (pyBin (beNat (sha256 (toBytesBE ((e.length + 7) / 8) (natOfBits e))))))) = _
  congr 1
  have hdig := sha256_length (toBytesBE ((e.length + 7) / 8) (natOfBits e))
  have hdigv := sha256_lt (toBytesBE ((e.length + 7) / 8) (natOfBits e))
  have hlt : beNat (sha256 (toBytesBE ((e.length + 7) / 8) (natOfBits e))) < 2 ^ 256 := by
    have h2 := beNat_lt hdigv
    rw [hdig] at h2
    calc beNat _ < 256 ^ 32 := h2
      _ = 2 ^ 256 := by norm_num
  rw [zfill_pyBin hlt (by norm_num)]
  have h256 : (256 : Nat) = 8 * (sha256 (toBytesBE ((e.length + 7) / 8) (natOfBits e))).length := by
    rw [hdig]
  rw [h256, natBitsFixed_beNat _ hdigv]

theorem entropy_checksum_length {e c : List Bool} (h : e.length ∈ _bits)
    (hc : _entropy_checksum e = .ok c) : c.length = e.length / 32 := by
  rw [entropy_checksum_eq h] at hc
  have hc' := congrArg List.length (Except.ok.inj hc)
  rw [List.length_take, bytesToBits_length, sha256_length] at hc'
  have hmem := h
  simp only [_bits, List.mem_cons, List.not_mem_nil, or_false] at hmem
  rcases hmem with h5 | h5 | h5 | h5 | h5 <;> rw [h5] at hc' ⊢ <;> omega

/-- **C2.** For every bit-string of valid length, the BIP39 checksum is the
leftmost `length/32` bits of the SHA-256 digest of the entropy's minimal
big-endian byte serialization, the digest first rendered as a binary
string left-zero-padded to exactly 256 bits so that its leading zero bits
are preserved. -/
theorem entropy_checksum_spec (e : List Bool) (h : e.length ∈ _bits) :
    _entropy_checksum e = .ok (spec_checksum e) := by
  rw [entropy_checksum_eq h, spec_checksum]
  have hmem := h
  simp only [_bits, List.mem_cons, List.not_mem_nil, or_false] at hmem
  rcases hmem with h5 | h5 | h5 | h5 | h5 <;> rw [h5]

set_option maxRecDepth 4000 in
/-- Witness for C2 at a concrete 128-bit entropy. -/
theorem entropy_checksum_spec_witness :
    (List.replicate 128 false).length ∈ _bits ∧
      _entropy_checksum (List.replicate 128 false) =
        .ok (spec_checksum (List.replicate 128 false)) :=
  ⟨by decide, entropy_checksum_spec (List.replicate 128 false) (by decide)⟩

/-! ## Seed derivation (C6) -/

theorem word64BytesBE_length (w : Nat) : (word64BytesBE w).length = 8 := rfl

theorem sha512_length (msg : List Nat) : (sha512 msg).length = 64 := by
  simp [sha512, word64BytesBE]

theorem hmacSha512_length (key msg : List Nat) : (hmacSha512 key msg).length = 64 := by
  simp [hmacSha512, sha512_length]

theorem xorBytes_length (a b : List Nat) :
    (xorBytes a b).length = min a.length b.length := by
  simp [xorBytes]

theorem pbkdf2Iter_length (p : List Nat) :
    ∀ (f : Nat) (u t : List Nat), t.length = 64 → (pbkdf2Iter p f u t).length = 64 := by
  intro f
  induction f with
  | zero => intro u t ht; exact ht
  | succ k ih =>
    intro u t ht
    rw [pbkdf2Iter]
    apply ih
    simp [xorBytes_length, ht, hmacSha512_length]

theorem pbkdf2F_length (p s : List Nat) (it i : Nat) : (pbkdf2F p s it i).length = 64 := by
  rw [pbkdf2F]
  exact pbkdf2Iter_length p _ _ _ (hmacSha512_length _ _)

theorem pbkdf2_64_length (p s : List Nat) (it : Nat) :
    (pbkdf2HmacSha512 p s it 64).length = 64 := by
  have h1 : ((64 + 63) / 64 : Nat) = 1 := by norm_num
  simp [pbkdf2HmacSha512, h1, List.range_succ, pbkdf2F_length]

/-- **C6.** Whenever `seed_from_mnemonic` returns (checksum verification
passing or skipped), the seed is exactly PBKDF2-HMAC-SHA-512, 2048
iterations, 64 bytes, with the whitespace-normalized UTF-8 mnemonic as
password and UTF-8 `"mnemonic" + passphrase` as salt. -/
theorem seed_from_mnemonic_spec (wti : List Char → Option Nat)
    (mnemonic passphrase : List Char) (v : Bool) (r : List Nat)
    (hr : seed_from_mnemonic wti mnemonic passphrase v = .ok r) :
    r = pbkdf2HmacSha512 (utf8Encode (pyJoin (pySplit mnemonic)))
        (utf8Encode ("mnemonic".toList ++ passphrase)) 2048 64 ∧ r.length = 64 := by
  cases v with
  | false =>
    simp only [seed_from_mnemonic, Bool.false_eq_true, if_false, bind, Except.bind,
      pure, Except.pure, Except.ok.injEq] at hr
    subst hr
    exact ⟨rfl, pbkdf2_64_length _ _ _⟩
  | true =>
    cases he : entropy_from_mnemonic wti mnemonic with
    | error e =>
      simp only [seed_from_mnemonic, if_true, he, bind, Except.bind] at hr
      cases hr
    | ok ent =>
      simp only [seed_from_mnemonic, if_true, he, bind, Except.bind, pure, Except.pure,
        Except.ok.injEq] at hr
      subst hr
      exact ⟨rfl, pbkdf2_64_length _ _ _⟩

/-- Witness for C6 at a concrete mnemonic and passphrase. -/
theorem seed_from_mnemonic_spec_witness :
    seed_from_mnemonic wtiNone ['a', ' ', 'b'] ['p'] false =
      .ok (pbkdf2HmacSha512 (utf8Encode (pyJoin (pySplit ['a', ' ', 'b'])))
        (utf8Encode ("mnemonic".toList ++ ['p'])) 2048 64) ∧
    (pbkdf2HmacSha512 (utf8Encode (pyJoin (pySplit ['a', ' ', 'b'])))
        (utf8Encode ("mnemonic".toList ++ ['p'])) 2048 64).length = 64 :=
  ⟨rfl, (seed_from_mnemonic_spec wtiNone ['a', ' ', 'b'] ['p'] false _ rfl).2⟩

/-! ## Header deserialization on short input (C3) -/

/-- **C3, counterexample.** `BlockHeader.deserialize` with validation
skipped does not fail on the empty (hence shorter-than-80-byte) input: it
returns a header built from the empty reads. There is no truncation check
in the code. -/
theorem deserialize_empty_skip_ok :
    BlockHeader.deserialize [] false = .ok ⟨0, [], [], ⟨0, 0, true⟩, [], 0⟩ := rfl

/-- **C3, amended.** Deserialization performs no truncation check: with
validation skipped it succeeds on every input shorter than 80 bytes; with
validation on, the empty input fails — but with the version range error,
not a dedicated truncated-input error. -/
theorem deserialize_short_amended :
    (∀ data : List Nat, data.length < 80 →
      ∃ h, BlockHeader.deserialize data false = .ok h) ∧
    BlockHeader.deserialize [] true = .error (.invalidVersion 0) := by
  refine ⟨fun data _ => ⟨_, rfl⟩, ?_⟩
  rfl

/-- Witness for the amended C3 at a concrete 3-byte input. -/
theorem deserialize_short_amended_witness :
    ∃ h, BlockHeader.deserialize [1, 2, 3] false = .ok h :=
  deserialize_short_amended.1 [1, 2, 3] (by decide)

/-! ## Genesis difficulty (C9) -/

/-- **C9.** A header whose `bits` decode to exponent `0x1d` and
significand `0x00ffff` has difficulty exactly 1 (the two factors are
`0xffff/0xffff = 1` and `256^0 = 1`; both are exact in Python's floats as
well as in `ℚ`). -/
theorem difficulty_genesis (h : BlockHeader) (hb : h.bits = [0x1d, 0x00, 0xff, 0xff]) :
    h.difficulty = .ok 1 := by
  simp only [BlockHeader.difficulty, hb]
  norm_num [beNat]

/-- Witness for C9. -/
theorem difficulty_genesis_witness :
    hdrGenesisBits.bits = [0x1d, 0x00, 0xff, 0xff] ∧ hdrGenesisBits.difficulty = .ok 1 :=
  ⟨rfl, difficulty_genesis hdrGenesisBits rfl⟩

/-! ## Empty blocks hit `IndexError`, not `MissingCoinbase` (C10) -/

/-- **C10.** On a block with no transactions, both `assert_valid` and the
`height` property fail with Python's `IndexError` from `transactions[0]`,
not with the `MissingCoinbase` validation error: the non-emptiness of the
transaction list is an unchecked precondition. -/
theorem empty_block_index_error (hdr : BlockHeader) :
    Block.assert_valid ⟨hdr, []⟩ = .error .indexError ∧
    Block.heightE ⟨hdr, []⟩ = .error .indexError :=
  ⟨rfl, rfl⟩

/-! ## Proof of work (C5) -/

theorem beNat_acc (l : List Nat) (acc : Nat) :
    List.foldl (fun acc b => 256 * acc + b) acc l = acc * 256 ^ l.length + beNat l := by
  induction l generalizing acc with
  | nil => simp [beNat]
  | cons b bs ih =>
    simp only [List.foldl_cons, List.length_cons]
    rw [ih (256 * acc + b), show beNat (b :: bs) = List.foldl (fun acc b => 256 * acc + b) b bs
      from by simp [beNat], ih b]
    ring

theorem beNat_cons (b : Nat) (l : List Nat) :
    beNat (b :: l) = b * 256 ^ l.length + beNat l := by
  show List.foldl (fun acc b => 256 * acc + b) (256 * 0 + b) l = _
  rw [beNat_acc]
  ring_nf

/-- Python's lexicographic `bytes` comparison agrees with the big-endian
unsigned numeric comparison on equal-length byte strings. -/
theorem bytesLt_iff : ∀ (a b : List Nat), a.length = b.length →
    (∀ x ∈ a, x < 256) → (∀ x ∈ b, x < 256) →
    (bytesLt a b = true ↔ beNat a < beNat b) := by
  intro a
  induction a with
  | nil =>
    intro b hlen _ _
    cases b with
    | nil => simp [bytesLt, beNat]
    | cons y ys => simp at hlen
  | cons x xs ih =>
    intro b hlen ha hb
    cases b with
    | nil => simp at hlen
    | cons y ys =>
      have hxslen : xs.length = ys.length := by simpa using hlen
      have hx : x < 256 := ha x (by simp)
      have hy : y < 256 := hb y (by simp)
      have hxs : beNat xs < 256 ^ xs.length := beNat_lt (fun z hz => ha z (by simp [hz]))
      have hys : beNat ys < 256 ^ ys.length := beNat_lt (fun z hz => hb z (by simp [hz]))
      rw [beNat_cons, beNat_cons, ← hxslen]
      rcases lt_trichotomy x y with hxy | hxy | hxy
      · rw [bytesLt, if_pos hxy]
        have : x * 256 ^ xs.length + beNat xs < y * 256 ^ xs.length + beNat ys := by
          calc x * 256 ^ xs.length + beNat xs
              < x * 256 ^ xs.length + 256 ^ xs.length := by omega
            _ = (x + 1) * 256 ^ xs.length := by ring
            _ ≤ y * 256 ^ xs.length := Nat.mul_le_mul_right _ (by omega)
            _ ≤ y * 256 ^ xs.length + beNat ys := Nat.le_add_right _ _
        simp [this]
      · subst hxy
        rw [bytesLt, if_neg (lt_irrefl x), if_neg (lt_irrefl x)]
        rw [ih ys hxslen (fun z hz => ha z (by simp [hz])) (fun z hz => hb z (by simp [hz]))]
        omega
      · rw [bytesLt, if_neg (by omega), if_pos hxy]
        have : y * 256 ^ xs.length + beNat ys < x * 256 ^ xs.length + beNat xs := by
          calc y * 256 ^ xs.length + beNat ys
              < y * 256 ^ xs.length + 256 ^ xs.length := by
                rw [← hxslen] at hys
                omega
            _ = (y + 1) * 256 ^ xs.length := by ring
            _ ≤ x * 256 ^ xs.length := Nat.mul_le_mul_right _ (by omega)
            _ ≤ x * 256 ^ xs.length + beNat xs := Nat.le_add_right _ _
        simp
        omega

/-- What a successful `target` read gives: 32 bytes, each a genuine byte. -/
theorem target_ok_shape (h : BlockHeader) (t : List Nat) (ht : h.target = .ok t) :
    t.length = 32 ∧ ∀ x ∈ t, x < 256 := by
  rcases hb : h.bits with _ | ⟨b0, rest⟩ <;> simp only [BlockHeader.target, hb] at ht
  · cases ht
  · split_ifs at ht with h1 h2
    all_goals try cases ht
    all_goals exact ⟨toBytesBE_length 32 _, fun x hx => toBytesBE_lt 32 _ x hx⟩

/-- **C5.** When the target is computable (and the header serializable, so
that `hash()` is defined), `assert_valid_pow` fails with
`ProofOfWorkInvalid` exactly when the reversed double SHA-256 of the
serialization is `>=` the 32-byte target — equivalently, by
`bytesLt_iff`, when it is numerically at least the target read as a
big-endian unsigned value — and returns normally when it is below. -/
theorem assert_valid_pow_iff (h : BlockHeader) (t s : List Nat)
    (ht : h.target = .ok t) (hs : h.serializeNoValid = .ok s) :
    (h.assert_valid_pow = .error (.proofOfWorkInvalid ((hash256 s).reverse) t) ↔
      beNat t ≤ beNat ((hash256 s).reverse)) ∧
    (beNat ((hash256 s).reverse) < beNat t → h.assert_valid_pow = .ok ()) := by
  obtain ⟨htlen, htval⟩ := target_ok_shape h t ht
  have hhlen : ((hash256 s).reverse).length = 32 := by
    simp [hash256, sha256_length]
  have hhval : ∀ x ∈ (hash256 s).reverse, x < 256 := by
    intro x hx
    exact sha256_lt _ x (List.mem_reverse.1 hx)
  have hnum := bytesLt_iff ((hash256 s).reverse) t (by rw [hhlen, htlen]) hhval htval
  simp only [BlockHeader.assert_valid_pow, BlockHeader.hash, hs, Except.map, bind,
    Except.bind, ht, bytesGe]
  by_cases hlt : bytesLt ((hash256 s).reverse) t = true
  · have := hnum.1 hlt
    simp [hlt]
    omega
  · have hge : ¬ beNat ((hash256 s).reverse) < beNat t := fun hc => hlt (hnum.2 hc)
    simp only [hlt, Bool.not_false, if_pos rfl]
    simp at hlt
    simp [hlt]
    omega

/-! ## Header serialization round trip (C4) -/

/-- A successful unvalidated serialization pins down the field bounds and
the byte layout. -/
theorem serializeNoValid_ok (h : BlockHeader) (s : List Nat)
    (hs : h.serializeNoValid = .ok s) :
    (-(2 ^ 31 : Int) ≤ h.version ∧ h.version < 2 ^ 31) ∧
    h.time.seconds < 4294967296 ∧ h.nonce < 4294967296 ∧
    s = toBytesLE 4 (h.version % (4294967296 : Int)).toNat ++ h.previous_block_hash.reverse ++
        h.merkle_root.reverse ++ toBytesLE 4 h.time.seconds ++ h.bits.reverse ++
        toBytesLE 4 h.nonce := by
  simp only [BlockHeader.serializeNoValid, intToBytesLESigned, natToBytesLEChecked, bind,
    Except.bind] at hs
  split_ifs at hs with h1 h2 h3
  rw [Except.ok.injEq] at hs
  refine ⟨by omega, by omega, by omega, ?_⟩
  rw [← hs]
  norm_num

theorem leNatSigned_toBytesLE {v : Int} (h1 : -(2 ^ 31) ≤ v) (h2 : v < 2 ^ 31) :
    leNatSigned (toBytesLE 4 (v % (4294967296 : Int)).toNat) = v := by
  have hmod : (0 : Int) ≤ v % 4294967296 := Int.emod_nonneg v (by norm_num)
  have hlt : v % 4294967296 < 4294967296 := Int.emod_lt_of_pos v (by norm_num)
  have hult : (v % (4294967296 : Int)).toNat < 4294967296 := by omega
  have hle : leNat (toBytesLE 4 (v % (4294967296 : Int)).toNat) =
      (v % (4294967296 : Int)).toNat := by
    apply leNat_toBytesLE
    norm_num
    exact hult
  simp only [leNatSigned, toBytesLE_length, hle]
  norm_num
  split_ifs with hcond <;> omega

/-- Deserialization of the six concatenated field encodings. -/
theorem deserialize_append (v p m t b n : List Nat) (hv4 : v.length = 4)
    (hp : p.length = 32) (hm : m.length = 32) (ht : t.length = 4) (hb : b.length = 4)
    (hn : n.length = 4) :
    BlockHeader.deserialize (v ++ p ++ m ++ t ++ b ++ n) false =
      .ok ⟨leNatSigned v, p.reverse, m.reverse, ⟨leNat t, 0, true⟩, b.reverse, leNat n⟩ := by
  have e1 : (v ++ (p ++ (m ++ (t ++ (b ++ n))))).take 4 = v := List.take_left' hv4
  have e2 : (v ++ (p ++ (m ++ (t ++ (b ++ n))))).drop 4 = p ++ (m ++ (t ++ (b ++ n))) :=
    List.drop_left' hv4
  have e3 : (p ++ (m ++ (t ++ (b ++ n)))).take 32 = p := List.take_left' hp
  have e4 : (p ++ (m ++ (t ++ (b ++ n)))).drop 32 = m ++ (t ++ (b ++ n)) := List.drop_left' hp
  have e5 : (m ++ (t ++ (b ++ n))).take 32 = m := List.take_left' hm
  have e6 : (m ++ (t ++ (b ++ n))).drop 32 = t ++ (b ++ n) := List.drop_left' hm
  have e7 : (t ++ (b ++ n)).take 4 = t := List.take_left' ht
  have e8 : (t ++ (b ++ n)).drop 4 = b ++ n := List.drop_left' ht
  have e9 : (b ++ n).take 4 = b := List.take_left' hb
  have e10 : (b ++ n).drop 4 = n := List.drop_left' hb
  have e11 : n.take 4 = n := by rw [← hn, List.take_length]
  simp only [BlockHeader.deserialize, List.append_assoc, e1, e2, e3, e4, e5, e6, e7, e8,
    e9, e10, e11, if_neg (Bool.false_ne_true)]

/-- `deserialize` with validation is `deserialize` without it followed by
`assert_valid`. -/
theorem deserialize_validate (data : List Nat) :
    BlockHeader.deserialize data true =
      (BlockHeader.deserialize data false) >>= fun h => h.assert_valid >>= fun _ => .ok h := rfl

/-- The field bounds and a successful serialization extracted from a
successful `assert_valid`. -/
theorem assert_valid_ok_facts (h : BlockHeader) (hv : h.assert_valid = .ok ()) :
    (0 < h.version ∧ h.version ≤ 0x7FFFFFFF) ∧ h.previous_block_hash.length = 32 ∧
    h.merkle_root.length = 32 ∧ h.bits.length = 4 ∧ ∃ s, h.serializeNoValid = .ok s := by
  rw [BlockHeader.assert_valid] at hv
  split_ifs at hv with h1 h2 h3 h4 h5 h6
  refine ⟨h1, by omega, by omega, by omega, ?_⟩
  cases hht : h.target with
  | error e => rw [hht] at hv; simp [bind, Except.bind] at hv
  | ok tv =>
    rw [hht] at hv
    simp only [bind, Except.bind] at hv
    cases hhd : h.difficulty with
    | error e => rw [hhd] at hv; simp at hv
    | ok dv =>
      rw [hhd] at hv
      cases hsv : h.serializeNoValid with
      | error e =>
        rw [BlockHeader.assert_valid_pow, BlockHeader.hash, hsv] at hv
        simp [Except.map, bind, Except.bind] at hv
      | ok s => exact ⟨s, rfl⟩

/-- **C4, amended.** Any header accepted by `assert_valid` *whose time is
a whole-second, timezone-aware datetime* serializes, and deserializing
that serialization (with validation) returns an equal header, all six
public fields included. The restriction is forced: a fractional-second or
timezone-naive time passes validation but round-trips to its truncated
UTC image, which Python's dataclass equality distinguishes (see
`serialize_roundtrip_counterexample`). -/
theorem serialize_roundtrip (h : BlockHeader) (hv : h.assert_valid = .ok ())
    (hmic : h.time.micro = 0) (haw : h.time.aware = true) :
    ∃ s, h.serialize true = .ok s ∧ BlockHeader.deserialize s true = .ok h := by
  obtain ⟨⟨hv1, hv2⟩, hp32, hm32, hb4, s, hs⟩ := assert_valid_ok_facts h hv
  obtain ⟨⟨hi1, hi2⟩, htime, hnonce, hseq⟩ := serializeNoValid_ok h s hs
  refine ⟨s, ?_, ?_⟩
  · rw [BlockHeader.serialize, hv]
    simpa [bind, Except.bind] using hs
  · rw [deserialize_validate, hseq]
    rw [deserialize_append _ _ _ _ _ _ (toBytesLE_length 4 _) (by simpa using hp32)
      (by simpa using hm32) (toBytesLE_length 4 _) (by simpa using hb4) (toBytesLE_length 4 _)]
    have hver : leNatSigned (toBytesLE 4 ((h.version % (4294967296 : Int)).toNat)) = h.version :=
      leNatSigned_toBytesLE (by omega) (by omega)
    have ht' : leNat (toBytesLE 4 h.time.seconds) = h.time.seconds := by
      apply leNat_toBytesLE
      rw [show (256 : Nat) ^ 4 = 4294967296 from by norm_num]
      exact htime
    have hn' : leNat (toBytesLE 4 h.nonce) = h.nonce := by
      apply leNat_toBytesLE
      rw [show (256 : Nat) ^ 4 = 4294967296 from by norm_num]
      exact hnonce
    simp only [hver, ht', hn', List.reverse_reverse]
    have htm : (⟨h.time.seconds, 0, true⟩ : PyDatetime) = h.time := by
      rw [← hmic, ← haw]
    rw [htm]
    have heta : (⟨h.version, h.previous_block_hash, h.merkle_root, h.time, h.bits,
        h.nonce⟩ : BlockHeader) = h := rfl
    rw [heta]
    simp [bind, Except.bind, hv]

set_option maxRecDepth 100000 in
/-- Witness for the amended C4: `hdrStd` passes validation (its double
SHA-256 is below the easy target), has a whole-second aware time, and
round-trips. -/
theorem serialize_roundtrip_witness :
    hdrStd.assert_valid = .ok () ∧ hdrStd.time.micro = 0 ∧ hdrStd.time.aware = true ∧
    ∃ s, hdrStd.serialize true = .ok s ∧ BlockHeader.deserialize s true = .ok hdrStd := by
  have h1 : hdrStd.assert_valid = .ok () := by decide
  exact ⟨h1, rfl, rfl, serialize_roundtrip hdrStd h1 rfl rfl⟩

set_option maxRecDepth 100000 in
/-- **C4, counterexample.** `hdrFrac` — `hdrStd` with half a second added
to its time — passes `assert_valid` (its `int(timestamp())` serialization
is byte-identical to `hdrStd`'s), yet deserializing its serialization
returns `hdrStd`, whose whole-second datetime differs from `hdrFrac`'s:
the round trip of the frozen claim fails on this valid header. -/
theorem serialize_roundtrip_counterexample :
    hdrFrac.assert_valid = .ok () ∧
    hdrFrac.serialize true = .ok hdrStdSer ∧
    BlockHeader.deserialize hdrStdSer true = .ok hdrStd ∧
    hdrStd ≠ hdrFrac := by
  refine ⟨by decide, by decide, by decide, by decide⟩

/-- Witness for C5 at `hdrStd`. -/
theorem assert_valid_pow_iff_witness :
    hdrStd.target = .ok hdrStdTarget ∧ hdrStd.serializeNoValid = .ok hdrStdSer ∧
    ((hdrStd.assert_valid_pow =
        .error (.proofOfWorkInvalid ((hash256 hdrStdSer).reverse) hdrStdTarget) ↔
      beNat hdrStdTarget ≤ beNat ((hash256 hdrStdSer).reverse)) ∧
     (beNat ((hash256 hdrStdSer).reverse) < beNat hdrStdTarget →
      hdrStd.assert_valid_pow = .ok ())) :=
  ⟨by decide, by decide, assert_valid_pow_iff hdrStd hdrStdTarget hdrStdSer (by decide) (by decide)⟩

/-! ## Block-level merkle validation (C7)

`Block.assert_valid` raises `MerkleMismatch` exactly when the recomputed,
reversed merkle root differs from the header field; everything the
validation chain can raise after that point is provably a different
error. -/

theorem serializeNoValid_err (h : BlockHeader) (e : Err)
    (hs : h.serializeNoValid = .error e) : e = .overflowError := by
  simp only [BlockHeader.serializeNoValid, intToBytesLESigned, natToBytesLEChecked, bind,
    Except.bind] at hs
  split_ifs at hs
  all_goals cases hs
  all_goals rfl

theorem target_err (h : BlockHeader) (e : Err) (ht : h.target = .error e) :
    e = .indexError ∨ e = .typeError ∨ e = .overflowError := by
  rcases hb : h.bits with _ | ⟨b0, rest⟩ <;> simp only [BlockHeader.target, hb] at ht
  · cases ht
    exact Or.inl rfl
  · split_ifs at ht
    all_goals cases ht
    · exact Or.inr (Or.inl rfl)
    · exact Or.inr (Or.inr rfl)

theorem difficulty_err (h : BlockHeader) (e : Err) (hd : h.difficulty = .error e) :
    e = .zeroDivisionError ∨ e = .indexError := by
  simp only [BlockHeader.difficulty] at hd
  split_ifs at hd
  · cases hd
    exact Or.inl rfl
  · rcases hb : h.bits with _ | ⟨b0, rest⟩ <;> rw [hb] at hd
    · cases hd
      exact Or.inr rfl
    · cases hd

theorem pow_not_merkle (h : BlockHeader) (a c : List Nat) :
    h.assert_valid_pow ≠ .error (.merkleMismatch a c) := by
  intro hp
  rw [BlockHeader.assert_valid_pow] at hp
  cases hsv : h.serializeNoValid with
  | error e =>
    rw [BlockHeader.hash, hsv] at hp
    simp only [Except.map, bind, Except.bind] at hp
    cases hp
    cases serializeNoValid_err h _ hsv
  | ok s =>
    rw [BlockHeader.hash, hsv] at hp
    simp only [Except.map, bind, Except.bind] at hp
    cases hht : h.target with
    | error e =>
      rw [hht] at hp
      simp only at hp
      cases hp
      rcases target_err h _ hht with h1 | h1 | h1 <;> cases h1
    | ok t =>
      rw [hht] at hp
      simp only at hp
      split_ifs at hp
      cases hp

theorem header_valid_not_merkle (h : BlockHeader) (a c : List Nat) :
    h.assert_valid ≠ .error (.merkleMismatch a c) := by
  intro hp
  rw [BlockHeader.assert_valid] at hp
  split_ifs at hp
  all_goals try cases hp
  cases hht : h.target with
  | error e =>
    rw [hht] at hp
    simp only [bind, Except.bind] at hp
    cases hp
    rcases target_err h _ hht with h1 | h1 | h1 <;> cases h1
  | ok t =>
    rw [hht] at hp
    simp only [bind, Except.bind] at hp
    cases hhd : h.difficulty with
    | error e =>
      rw [hhd] at hp
      simp only at hp
      cases hp
      rcases difficulty_err h _ hhd with h1 | h1 <;> cases h1
    | ok d =>
      rw [hhd] at hp
      simp only at hp
      exact pow_not_merkle h a c hp

theorem header_serialize_not_merkle (h : BlockHeader) (av : Bool) (a c : List Nat) :
    h.serialize av ≠ .error (.merkleMismatch a c) := by
  intro hp
  cases av with
  | false =>
    rw [BlockHeader.serialize] at hp
    simp only [Bool.false_eq_true, if_false] at hp
    cases serializeNoValid_err h _ hp
  | true =>
    rw [BlockHeader.serialize, if_pos rfl] at hp
    cases hav : h.assert_valid with
    | error e =>
      rw [hav] at hp
      simp only [bind, Except.bind] at hp
      cases hp
      exact header_valid_not_merkle h a c hav
    | ok u =>
      rw [hav] at hp
      simp only [bind, Except.bind] at hp
      cases serializeNoValid_err h _ hp

theorem sizeE_not_merkle (b : Block) (a c : List Nat) :
    b.sizeE ≠ .error (.merkleMismatch a c) := by
  intro hp
  rw [Block.sizeE, Block.serializeNoValid] at hp
  cases hhs : b.header.serialize true with
  | error e =>
    rw [hhs] at hp
    simp only [bind, Except.bind, Except.map] at hp
    cases hp
    exact header_serialize_not_merkle b.header true a c hhs
  | ok s =>
    rw [hhs] at hp
    simp only [bind, Except.bind, Except.map] at hp
    cases hp

theorem varbytes_err (l : List Nat) (e : Err) (hv : varbytesDeserialize l = .error e) :
    e = .truncatedInput := by
  rcases l with _ | ⟨n, rest⟩ <;> simp only [varbytesDeserialize] at hv
  · cases hv
    rfl
  · split_ifs at hv
    cases hv
    rfl

theorem heightE_not_merkle (b : Block) (a c : List Nat) :
    b.heightE ≠ .error (.merkleMismatch a c) := by
  intro hp
  rcases htx : b.transactions with _ | ⟨t0, rest⟩ <;> simp only [Block.heightE, htx] at hp
  · cases hp
  · split_ifs at hp
    all_goals try cases hp
    rcases hvin : t0.vin with _ | ⟨vi, vrest⟩ <;> rw [hvin] at hp
    · cases hp
    · have hp2 : Except.map (fun hb => some (leNatSigned hb))
          (varbytesDeserialize vi.script_sig) = .error (.merkleMismatch a c) := hp
      cases hvb : varbytesDeserialize vi.script_sig with
      | error e =>
        rw [hvb] at hp2
        simp only [Except.map] at hp2
        cases hp2
        cases varbytes_err _ _ hvb
      | ok hb =>
        rw [hvb] at hp2
        simp only [Except.map] at hp2
        cases hp2

theorem txsAssertValid_ok (rest : List Tx) (hval : ∀ t ∈ rest, t.validity = .ok ()) :
    txsAssertValid rest = .ok () := by
  induction rest with
  | nil => rfl
  | cons t ts ih =>
    rw [txsAssertValid, hval t (by simp), ih (fun x hx => hval x (by simp [hx]))]
    rfl

/-- **C7.** For a block whose first transaction is a coinbase and whose
remaining transactions individually validate, `assert_valid` fails with
`MerkleMismatch` if and only if the reversed merkle root recomputed over
the non-witness serializations differs from the header's merkle root. -/
theorem block_merkle_iff (hdr : BlockHeader) (t0 : Tx) (rest : List Tx)
    (hcb : t0.coinbase = true) (hval : ∀ t ∈ rest, t.validity = .ok ()) :
    (Block.assert_valid ⟨hdr, t0 :: rest⟩ =
        .error (.merkleMismatch hdr.merkle_root
          ((merkle_root ((t0 :: rest).map Tx.nwSerialization)).reverse)) ↔
      (merkle_root ((t0 :: rest).map Tx.nwSerialization)).reverse ≠ hdr.merkle_root) := by
  have htxs : txsAssertValid rest = .ok () := txsAssertValid_ok rest hval
  simp only [Block.assert_valid, hcb, Bool.true_eq_false, if_false, htxs, bind, Except.bind]
  by_cases hmr : (merkle_root ((t0 :: rest).map Tx.nwSerialization)).reverse = hdr.merkle_root
  · rw [if_neg (not_not_intro hmr)]
    simp only [hmr, ne_eq, not_true_eq_false, iff_false]
    intro hc
    cases hh : hdr.assert_valid with
    | error e =>
      rw [hh] at hc
      cases hc
      exact header_valid_not_merkle hdr _ _ hh
    | ok u =>
      rw [hh] at hc
      simp only at hc
      cases hsz : Block.sizeE ⟨hdr, t0 :: rest⟩ with
      | error e =>
        rw [hsz] at hc
        cases hc
        exact sizeE_not_merkle _ _ _ hsz
      | ok sz =>
        rw [hsz] at hc
        simp only at hc
        cases hht : Block.heightE ⟨hdr, t0 :: rest⟩ with
        | error e =>
          rw [hht] at hc
          cases hc
          exact heightE_not_merkle _ _ _ hht
        | ok ht =>
          rw [hht] at hc
          simp only at hc
          cases hc
  · rw [if_pos hmr]
    simp only [ne_eq, hmr, not_false_eq_true, iff_true]

/-- Witness for C7: a single-coinbase block with an all-default header. -/
theorem block_merkle_iff_witness :
    txCb.coinbase = true ∧ (∀ t ∈ ([] : List Tx), t.validity = .ok ()) ∧
    (Block.assert_valid ⟨⟨0, [], [], ⟨0, 0, true⟩, [], 0⟩, [txCb]⟩ =
        .error (.merkleMismatch (⟨0, [], [], ⟨0, 0, true⟩, [], 0⟩ : BlockHeader).merkle_root
          ((merkle_root ([txCb].map Tx.nwSerialization)).reverse)) ↔
      (merkle_root ([txCb].map Tx.nwSerialization)).reverse ≠
        (⟨0, [], [], ⟨0, 0, true⟩, [], 0⟩ : BlockHeader).merkle_root) :=
  ⟨rfl, by simp, block_merkle_iff ⟨0, [], [], ⟨0, 0, true⟩, [], 0⟩ txCb [] rfl (by simp)⟩

/-! ## Mnemonic round trip and checksum detection (C1, C8) -/

/-- **C8.** For a mnemonic with a valid word count whose words are all in
the wordlist, `entropy_from_mnemonic` fails with `ChecksumMismatch` if and
only if the trailing checksum bits of the concatenated 11-bit indexes
differ from the checksum recomputed over the leading entropy bits — in
particular a single flipped checksum bit makes the two sides differ and so
raises. -/
theorem checksum_mismatch_iff (wti : List Char → Option Nat) (m : List Char)
    (idxs : List Nat) (chk : List Bool)
    (hwc : (pySplit m).length ∈ _words)
    (hidx : indexes_from_mnemonic wti m = .ok idxs)
    (hchk : _entropy_checksum ((entropy_from_indexes idxs).take
      ((entropy_from_indexes idxs).length * 32 / 33)) = .ok chk) :
    (entropy_from_mnemonic wti m =
        .error (.checksumMismatch
          ((entropy_from_indexes idxs).drop
            ((entropy_from_indexes idxs).length * 32 / 33)) chk) ↔
      (entropy_from_indexes idxs).drop
        ((entropy_from_indexes idxs).length * 32 / 33) ≠ chk) := by
  simp only [entropy_from_mnemonic, if_pos hwc, hidx, bind, Except.bind, hchk]
  by_cases hne : (entropy_from_indexes idxs).drop
      ((entropy_from_indexes idxs).length * 32 / 33) = chk
  · rw [if_neg (not_not_intro hne)]
    simp [hne]
  · rw [if_pos hne]
    simp [hne]

theorem chunks11_props : ∀ (k fuel : Nat) (l : List Bool), l.length = 11 * k → k ≤ fuel →
    (chunks11Aux fuel l).length = k ∧
    (∀ g ∈ chunks11Aux fuel l, g.length = 11) ∧
    (chunks11Aux fuel l).flatten = l := by
  intro k
  induction k with
  | zero =>
    intro fuel l hl _
    have : l = [] := List.eq_nil_of_length_eq_zero (by omega)
    subst this
    cases fuel <;> simp [chunks11Aux]
  | succ j ih =>
    intro fuel l hl hf
    have hlne : l ≠ [] := by
      intro hc
      subst hc
      simp at hl
    obtain ⟨f, rfl⟩ : ∃ f, fuel = f + 1 := ⟨fuel - 1, by omega⟩
    rw [chunks11Aux, if_neg (by simpa [List.isEmpty_iff] using hlne)]
    have hdl : (l.drop 11).length = 11 * j := by
      rw [List.length_drop, hl]
      ring_nf
      omega
    obtain ⟨ihlen, ihall, ihflat⟩ := ih f (l.drop 11) hdl (by omega)
    refine ⟨by simp [ihlen], ?_, ?_⟩
    · intro g hg
      rcases List.mem_cons.1 hg with rfl | hg2
      · rw [List.length_take, hl]
        omega
      · exact ihall g hg2
    · simp [ihflat]

theorem entropy_indexes_roundtrip (bs : List Bool) (k : Nat) (hl : bs.length = 11 * k) :
    entropy_from_indexes (indexes_from_entropy bs) = bs ∧
    (indexes_from_entropy bs).length = k ∧
    ∀ i ∈ indexes_from_entropy bs, i < 2048 := by
  obtain ⟨hlen, hall, hflat⟩ := chunks11_props k bs.length bs hl (by omega)
  refine ⟨?_, by simp [indexes_from_entropy, hlen], ?_⟩
  · rw [entropy_from_indexes, indexes_from_entropy, List.flatMap_def, List.map_map]
    have hmap : List.map (natBitsFixed 11 ∘ natOfBits) (chunks11Aux bs.length bs) =
        List.map id (chunks11Aux bs.length bs) := by
      apply List.map_congr_left
      intro g hg
      simp only [Function.comp_apply, id_eq]
      rw [show (11 : Nat) = g.length from (hall g hg).symm]
      exact natBitsFixed_natOfBits
    rw [hmap, List.map_id, hflat]
  · intro i hi
    rw [indexes_from_entropy] at hi
    obtain ⟨g, hg, rfl⟩ := List.mem_map.1 hi
    calc natOfBits g < 2 ^ g.length := natOfBits_lt g
      _ = 2048 := by rw [hall g hg]; norm_num

theorem pySplitAux_word : ∀ (w : List Char), (∀ ch ∈ w, isPySpace ch = false) →
    ∀ (rest acc : List Char), pySplitAux (w ++ rest) acc = pySplitAux rest (w.reverse ++ acc) := by
  intro w
  induction w with
  | nil => intro _ rest acc; simp
  | cons ch w' ih =>
    intro hw rest acc
    have hch : isPySpace ch = false := hw ch (by simp)
    simp only [List.cons_append, pySplitAux, hch, Bool.false_eq_true, if_false,
      List.append_eq]
    rw [ih (fun x hx => hw x (by simp [hx])) rest (ch :: acc)]
    simp

theorem pySplitAux_space (rest acc : List Char) :
    pySplitAux (' ' :: rest) acc =
      if acc.isEmpty then pySplitAux rest [] else acc.reverse :: pySplitAux rest [] := by
  simp [pySplitAux, isPySpace]

theorem pySplit_pyJoin : ∀ (ws : List (List Char)),
    (∀ w ∈ ws, w ≠ [] ∧ ∀ ch ∈ w, isPySpace ch = false) →
    pySplit (pyJoin ws) = ws := by
  intro ws
  induction ws with
  | nil => intro _; rfl
  | cons w ws' ih =>
    intro hws
    obtain ⟨hne, hns⟩ := hws w (by simp)
    cases ws' with
    | nil =>
      show pySplitAux (pyJoin [w]) [] = [w]
      have h1 : pyJoin [w] = w ++ [] := by simp [pyJoin]
      rw [h1, pySplitAux_word w hns [] []]
      rcases w with _ | ⟨c, cs⟩
      · cases hne rfl
      · simp [pySplitAux]
    | cons w2 ws'' =>
      have htail : ∀ x ∈ w2 :: ws'', x ≠ [] ∧ ∀ ch ∈ x, isPySpace ch = false :=
        fun x hx => hws x (by simp [hx])
      show pySplitAux (w ++ ' ' :: pyJoin (w2 :: ws'')) [] = w :: w2 :: ws''
      rw [pySplitAux_word w hns, pySplitAux_space]
      have hemp : (w.reverse ++ []).isEmpty = false := by
        rcases w with _ | ⟨c, cs⟩
        · cases hne rfl
        · simp
      rw [hemp]
      simp only [Bool.false_eq_true, if_false, List.append_nil, List.reverse_reverse]
      exact congrArg (List.cons w) (ih htail)

theorem wordsToIndexes_map (wti : List Char → Option Nat) (itw : Nat → List Char)
    (idxs : List Nat) (hwl : ∀ i ∈ idxs, wti (itw i) = some i) :
    wordsToIndexes wti (idxs.map itw) = .ok idxs := by
  induction idxs with
  | nil => rfl
  | cons i is ih =>
    simp only [List.map_cons, wordsToIndexes, hwl i (by simp)]
    rw [ih (fun x hx => hwl x (by simp [hx]))]
    rfl

theorem mnemonic_roundtrip_core (itw : Nat → List Char) (wti : List Char → Option Nat)
    (e c : List Bool) (k : Nat)
    (hlen : (e ++ c).length = 11 * k)
    (hwc : k ∈ _words)
    (hbits : 11 * k * 32 / 33 = e.length)
    (hc : _entropy_checksum e = .ok c)
    (hwl : ∀ i ∈ indexes_from_entropy (e ++ c),
      wti (itw i) = some i ∧ itw i ≠ [] ∧ ∀ ch ∈ itw i, isPySpace ch = false) :
    entropy_from_mnemonic wti (pyJoin ((indexes_from_entropy (e ++ c)).map itw)) = .ok e := by
  obtain ⟨hrt, hcount, hlt⟩ := entropy_indexes_roundtrip (e ++ c) k hlen
  have hsplit : pySplit (pyJoin ((indexes_from_entropy (e ++ c)).map itw)) =
      (indexes_from_entropy (e ++ c)).map itw := by
    apply pySplit_pyJoin
    intro w hw
    obtain ⟨i, hi, rfl⟩ := List.mem_map.1 hw
    exact ⟨(hwl i hi).2.1, (hwl i hi).2.2⟩
  have hwti : wordsToIndexes wti ((indexes_from_entropy (e ++ c)).map itw) =
      .ok (indexes_from_entropy (e ++ c)) :=
    wordsToIndexes_map wti itw _ (fun i hi => (hwl i hi).1)
  simp only [entropy_from_mnemonic, indexes_from_mnemonic, hsplit, List.length_map, hcount,
    if_pos hwc, hwti, bind, Except.bind, hrt, hlen, hbits, List.take_left, hc, List.drop_left]
  simp

/-- **C1.** For every entropy bit string of valid length (all-zero and
all-one included — nothing constrains the bits), the mnemonic produced by
`mnemonic_from_entropy` maps back through `entropy_from_mnemonic` to
exactly the original entropy, leading zero bits preserved. The wordlist
pair `itw`/`wti` is assumed to inversely match (with whitespace-free,
nonempty words) on the indexes this entropy uses. -/
theorem mnemonic_roundtrip (itw : Nat → List Char) (wti : List Char → Option Nat)
    (e c : List Bool) (m : List Char)
    (he : e.length ∈ _bits)
    (hc : _entropy_checksum e = .ok c)
    (hm : mnemonic_from_entropy itw e = .ok m)
    (hwl : ∀ i ∈ indexes_from_entropy (e ++ c),
      wti (itw i) = some i ∧ itw i ≠ [] ∧ ∀ ch ∈ itw i, isPySpace ch = false) :
    entropy_from_mnemonic wti m = .ok e := by
  have hm2 : m = pyJoin ((indexes_from_entropy (e ++ c)).map itw) := by
    simp only [mnemonic_from_entropy, hc, bind, Except.bind, mnemonic_from_indexes,
      Except.ok.injEq] at hm
    exact hm.symm
  subst hm2
  have hclen : c.length = e.length / 32 := entropy_checksum_length he hc
  have hmem := he
  simp only [_bits, List.mem_cons, List.not_mem_nil, or_false] at hmem
  rcases hmem with h5 | h5 | h5 | h5 | h5 <;>
    exact mnemonic_roundtrip_core itw wti e c (3 * e.length / 32)
      (by simp only [List.length_append, hclen, h5])
      (by rw [h5]; decide) (by rw [h5]) hc hwl


set_option maxRecDepth 100000 in
/-- Witness for C8: the all-zero 12-word mnemonic, whose claimed checksum
bits `0000` differ from the recomputed `0011`. -/
theorem checksum_mismatch_iff_witness :
    ((pySplit mnemZero).length ∈ _words) ∧
    indexes_from_mnemonic wtiW mnemZero = .ok (List.replicate 12 0) ∧
    _entropy_checksum ((entropy_from_indexes (List.replicate 12 0)).take
      ((entropy_from_indexes (List.replicate 12 0)).length * 32 / 33)) =
      .ok [false, false, true, true] ∧
    (entropy_from_mnemonic wtiW mnemZero = .error (.checksumMismatch
        ((entropy_from_indexes (List.replicate 12 0)).drop
          ((entropy_from_indexes (List.replicate 12 0)).length * 32 / 33))
        [false, false, true, true]) ↔
      (entropy_from_indexes (List.replicate 12 0)).drop
        ((entropy_from_indexes (List.replicate 12 0)).length * 32 / 33) ≠
        [false, false, true, true]) :=
  ⟨by decide, by decide, by decide,
   checksum_mismatch_iff wtiW mnemZero (List.replicate 12 0) [false, false, true, true]
     (by decide) (by decide) (by decide)⟩

set_option maxRecDepth 100000 in
/-- Witness for C1 at the all-zero 128-bit entropy. -/
theorem mnemonic_roundtrip_witness :
    ((List.replicate 128 false).length ∈ _bits) ∧
    entropy_from_mnemonic wtiW (pyJoin ((indexes_from_entropy
      (List.replicate 128 false ++ [false, false, true, true])).map itwW)) =
      .ok (List.replicate 128 false) :=
  ⟨by decide, mnemonic_roundtrip itwW wtiW (List.replicate 128 false)
    [false, false, true, true] _ (by decide) (by decide) (by decide) (by decide)⟩

end Btclib

